import Mathlib

/-! # A verification development for `revng.cpp`

`revng.cpp` defines three container classes: `BasicBlock` (a name and a
`std::map` from edge tags to successor pointers), `Function` (a name, a vector
of owned `BasicBlock*` and an entry pointer) and `Module` (a vector of owned
`Function*`).

Embedding.

* A `BasicBlock*` is `Option Nat`: `none` is `nullptr`, `some a` is an address.
* The free store is a list of cells indexed by address.  `new` appends a cell,
  `delete` empties one.  Addresses are never handed out twice, so a dangling
  pointer stays dangling.
* A `std::map<std::string, BasicBlock*>` is the list of its entries in
  iteration order.  `m[tag] = p` and `m.erase(tag)` walk that list using only
  `<` on keys, as `std::less<std::string>` does.
* `std::string` is `String`.  `std::less<std::string>` compares the bytes of
  the two strings position by position; `strLess` compares the characters
  position by position, which orders UTF-8 text the same way, and
  `strLess_iff_lt` shows that it is the order `<` of `String`.
* `new` always succeeds (no `std::bad_alloc`).
* Reading through a pointer that is null or not live is undefined behaviour in
  C++; a function that does so returns `none`.
* `std::cout` is a `String` that `toGraphViz` extends.
* `Function` objects live in a second list of cells (`Store.functions`); a
  `Module` is held by value by its caller.
* `Function` and `Module` declare no destructor; `Function.dtor` and
  `Module.dtor` are the implicitly defined ones, which release nothing that the
  vectors of raw pointers point at.
-/

namespace Revng

/-- A value of type `BasicBlock*`: `none` is `nullptr`. -/
abbrev BlockPtr := Option Nat

/-- The entries of a `std::map<std::string, BasicBlock*>` in iteration order. -/
abbrev SuccMap := List (String × BlockPtr)

/-- The comparison inside `std::string::compare`: the first position where the
two character sequences differ decides, and a proper initial segment is less. -/
def charsLess : List Char → List Char → Bool
  | _, [] => false
  | [], _ :: _ => true
  | a :: as, b :: bs =>
    if a.toNat < b.toNat then true
    else if b.toNat < a.toNat then false
    else charsLess as bs

/-- The comparison `std::less<std::string>` that orders the keys of the map. -/
def strLess (a b : String) : Bool := charsLess a.data b.data

/-- The statement `m[tag] = successor` on a `std::map`: the entry equivalent to
`tag` gets the new value, or a new entry is put at its place in key order. -/
def mapAssign : SuccMap → String → BlockPtr → SuccMap
  | [], tag, successor => [(tag, successor)]
  | (k, v) :: rest, tag, successor =>
    if strLess tag k then (tag, successor) :: (k, v) :: rest
    else if strLess k tag then (k, v) :: mapAssign rest tag successor
    else (k, successor) :: rest

/-- The call `m.erase(tag)` on a `std::map`: drops the entry equivalent to `tag`
when there is one. -/
def mapErase : SuccMap → String → SuccMap
  | [], _ => []
  | (k, v) :: rest, tag =>
    if strLess tag k then (k, v) :: rest
    else if strLess k tag then (k, v) :: mapErase rest tag
    else rest

/-- The representation invariant of `std::map`: in iteration order the keys
are strictly increasing. -/
def Ordered (m : SuccMap) : Prop :=
  m.Pairwise (fun a b => strLess a.1 b.1 = true)

instance (m : SuccMap) : Decidable (Ordered m) := by
  unfold Ordered
  infer_instance

/-- The class `BasicBlock`. -/
structure BasicBlock where
  m_Name : String
  m_Successors : SuccMap
  deriving DecidableEq, Repr

namespace BasicBlock

/-- The constructor `BasicBlock(name)`: the successor map starts empty. -/
def ctor (name : String) : BasicBlock :=
  { m_Name := name, m_Successors := [] }

/-- The method `addSuccessor`: `m_Successors[tag] = successor`. -/
def addSuccessor (self : BasicBlock) (successor : BlockPtr) (tag : String) : BasicBlock :=
  { self with m_Successors := mapAssign self.m_Successors tag successor }

/-- The method `removeSuccessor`: `m_Successors.erase(tag)`. -/
def removeSuccessor (self : BasicBlock) (tag : String) : BasicBlock :=
  { self with m_Successors := mapErase self.m_Successors tag }

/-- The getter `getSuccessors`. -/
def getSuccessors (self : BasicBlock) : SuccMap := self.m_Successors

/-- The getter `getName`. -/
def getName (self : BasicBlock) : String := self.m_Name

/-- The blocks a program can obtain: a newly constructed `BasicBlock` followed
by any finite sequence of `addSuccessor` and `removeSuccessor` calls. -/
inductive Built : BasicBlock → Prop
  | ctor (name : String) : Built (BasicBlock.ctor name)
  | addSuccessor {b : BasicBlock} (successor : BlockPtr) (tag : String) :
      Built b → Built (b.addSuccessor successor tag)
  | removeSuccessor {b : BasicBlock} (tag : String) :
      Built b → Built (b.removeSuccessor tag)

end BasicBlock

/-- The free store of `BasicBlock` objects: cell `a` holds the object at
address `a`, or `none` once it has been deleted. -/
structure Heap where
  cells : List (Option BasicBlock)
  deriving DecidableEq, Repr

namespace Heap

/-- The free store before any allocation. -/
def empty : Heap := { cells := [] }

/-- The expression `new BasicBlock(..)`: the object goes to a fresh address. -/
def alloc (h : Heap) (b : BasicBlock) : Heap × BlockPtr :=
  ({ cells := h.cells ++ [some b] }, some h.cells.length)

/-- Reading `*p`: `none` when `p` is null or does not point at a live object. -/
def deref (h : Heap) : BlockPtr → Option BasicBlock
  | none => none
  | some a => (h.cells.get? a).join

/-- Overwriting the live object at `p`. -/
def store (h : Heap) (p : BlockPtr) (b : BasicBlock) : Option Heap :=
  match p, h.deref p with
  | some a, some _ => some { cells := h.cells.set a (some b) }
  | _, _ => none

/-- The statement `delete p`: nothing for `nullptr`, releases a live object,
undefined for an address that is not live. -/
def delete (h : Heap) : BlockPtr → Option Heap
  | none => some h
  | some a =>
    match h.deref (some a) with
    | some _ => some { cells := h.cells.set a none }
    | none => none

/-- The call `p->addSuccessor(successor, tag)` through a pointer. -/
def addSuccessor (h : Heap) (p successor : BlockPtr) (tag : String) : Option Heap :=
  match h.deref p with
  | some b => h.store p (b.addSuccessor successor tag)
  | none => none

/-- The call `p->removeSuccessor(tag)` through a pointer. -/
def removeSuccessor (h : Heap) (p : BlockPtr) (tag : String) : Option Heap :=
  match h.deref p with
  | some b => h.store p (b.removeSuccessor tag)
  | none => none

end Heap

/-- The class `Function`. -/
structure Function where
  m_Name : String
  m_BasicBlocks : List BlockPtr
  m_EntryBlock : BlockPtr
  deriving DecidableEq, Repr

/-- The call `std::find_if(blocks.begin(), blocks.end(), pred)` with the
predicate `block->getName() == name`, as the offset of the returned iterator
from `begin()`; the offset of `end()` is the length. -/
def find_if (h : Heap) (name : String) : List BlockPtr → Option Nat
  | [] => some 0
  | block :: rest =>
    match h.deref block with
    | none => none
    | some b =>
      if b.getName = name then some 0
      else (find_if h name rest).map (· + 1)

/-- The inner loop of `toGraphViz`: one line per entry of the copied map. -/
def emitEdges (h : Heap) (blockName : String) : SuccMap → String → Option String
  | [], cout => some cout
  | (tag, successor) :: rest, cout =>
    match h.deref successor with
    | none => none
    | some s =>
      emitEdges h blockName rest
        (cout ++ "  \"" ++ blockName ++ "\" -> \"" ++ s.getName ++ "\""
          ++ " [label=\"" ++ tag ++ "\"]" ++ ";\n")

/-- The outer loop of `toGraphViz` over `m_BasicBlocks`. -/
def emitBlocks (h : Heap) : List BlockPtr → String → Option String
  | [], cout => some cout
  | block :: rest, cout =>
    match h.deref block with
    | none => none
    | some b =>
      match emitEdges h b.getName b.getSuccessors cout with
      | none => none
      | some cout1 => emitBlocks h rest cout1

namespace Function

/-- The constructor `Function(name)`. -/
def ctor (h : Heap) (name : String) : Heap × Function :=
  let r := h.alloc (BasicBlock.ctor "entry")
  (r.1, { m_Name := name, m_BasicBlocks := [] ++ [r.2], m_EntryBlock := r.2 })

/-- The method `createBasicBlock`; the third component is the returned pointer. -/
def createBasicBlock (h : Heap) (self : Function) (name : String) :
    Heap × Function × BlockPtr :=
  let r := h.alloc (BasicBlock.ctor name)
  (r.1, { self with m_BasicBlocks := self.m_BasicBlocks ++ [r.2] }, r.2)

/-- The method `insertBasicBlock`. -/
def insertBasicBlock (self : Function) (basicBlock : BlockPtr) : Function :=
  if basicBlock = none then self
  else { self with m_BasicBlocks := self.m_BasicBlocks ++ [basicBlock] }

/-- The method `removeBasicBlock`. -/
def removeBasicBlock (h : Heap) (self : Function) (name : String) :
    Option (Heap × Function) :=
  match find_if h name self.m_BasicBlocks with
  | none => none
  | some it =>
    if it ≠ self.m_BasicBlocks.length then
      let p := self.m_BasicBlocks.getD it none
      let entry := if p = self.m_EntryBlock then none else self.m_EntryBlock
      match h.delete p with
      | none => none
      | some h1 =>
        some (h1, { self with m_BasicBlocks := self.m_BasicBlocks.eraseIdx it,
                              m_EntryBlock := entry })
    else some (h, self)

/-- The method `toGraphViz`: the text is appended to `cout`. -/
def toGraphViz (h : Heap) (self : Function) (cout : String) : Option String :=
  match emitBlocks h self.m_BasicBlocks (cout ++ "digraph " ++ self.m_Name ++ " \x7b\n") with
  | none => none
  | some cout1 => some (cout1 ++ "\x7d\n")

/-- The getter `getName`. -/
def getName (self : Function) : String := self.m_Name

/-- The getter `getBasicBlocks`. -/
def getBasicBlocks (self : Function) : List BlockPtr := self.m_BasicBlocks

/-- The getter `getEntryBlock`. -/
def getEntryBlock (self : Function) : BlockPtr := self.m_EntryBlock

end Function

/-- The calls `createBasicBlock(n1)`, ..., `createBasicBlock(nk)` made one after
the other on the same `Function`. -/
def createBasicBlocks (h : Heap) (f : Function) : List String → Heap × Function
  | [] => (h, f)
  | n :: ns =>
    createBasicBlocks (Function.createBasicBlock h f n).1
      (Function.createBasicBlock h f n).2.1 ns

/-- The states of the free store and of a `Function` that a program reaches
from the constructor `Function(name)` by calls of `createBasicBlock`,
`insertBasicBlock` and `removeBasicBlock` on it, with allocations of further
blocks and `addSuccessor` / `removeSuccessor` calls on live blocks in between. -/
inductive Reachable : Heap → Function → Prop
  | ctor (h : Heap) (name : String) :
      Reachable (Function.ctor h name).1 (Function.ctor h name).2
  | createBasicBlock {h : Heap} {f : Function} (name : String) :
      Reachable h f →
      Reachable (Function.createBasicBlock h f name).1 (Function.createBasicBlock h f name).2.1
  | insertBasicBlock {h : Heap} {f : Function} (basicBlock : BlockPtr) :
      Reachable h f → Reachable h (f.insertBasicBlock basicBlock)
  | removeBasicBlock {h h1 : Heap} {f f1 : Function} (name : String) :
      Reachable h f → Function.removeBasicBlock h f name = some (h1, f1) → Reachable h1 f1
  | alloc {h : Heap} {f : Function} (name : String) :
      Reachable h f → Reachable (h.alloc (BasicBlock.ctor name)).1 f
  | addSuccessor {h h1 : Heap} {f : Function} (p successor : BlockPtr) (tag : String) :
      Reachable h f → h.addSuccessor p successor tag = some h1 → Reachable h1 f
  | removeSuccessor {h h1 : Heap} {f : Function} (p : BlockPtr) (tag : String) :
      Reachable h f → h.removeSuccessor p tag = some h1 → Reachable h1 f

/-- The calls of `Part1` that allocate blocks, in program order, up to the
report of the size of `blabla`: the free store, `mainFunc` and `blablaFunc`. -/
def Part1_created : Heap × Function × Function :=
  let m := Function.ctor Heap.empty "main"
  let b := Function.ctor m.1 "blabla"
  let m4 := createBasicBlocks b.1 m.2 ["some block", "bla bla", "to be deleted", "exit"]
  let b3 := createBasicBlocks m4.1 b.2 ["2nd block", "blabla", "exit"]
  (b3.1, m4.2, b3.2)

/-- The state of `Part1` after `mainFunc->removeBasicBlock("to be deleted")`. -/
def Part1_removed : Option (Heap × Function) :=
  Function.removeBasicBlock Part1_created.1 Part1_created.2.1 "to be deleted"

/-- The calls `p->addSuccessor(target, tag)` for the pairs of a list, in the
order of the list. -/
def addSuccessors (h : Heap) (p : BlockPtr) : List (BlockPtr × String) → Option Heap
  | [] => some h
  | (target, tag) :: rest =>
    match h.addSuccessor p target tag with
    | none => none
    | some h1 => addSuccessors h1 p rest

/-- The state of `Part2` when `toGraphViz` is called: the free store and `func`. -/
def Part2_built : Option (Heap × Function) :=
  let t := Function.ctor Heap.empty "test"
  let bH := Function.createBasicBlock t.1 t.2 "H"
  let bI := Function.createBasicBlock bH.1 bH.2.1 "I"
  let bJ := Function.createBasicBlock bI.1 bI.2.1 "J"
  let entry := bJ.2.1.getEntryBlock
  (bJ.1.addSuccessor entry bH.2.2 "true").bind fun h1 =>
  (h1.addSuccessor entry bI.2.2 "false").bind fun h2 =>
  (h2.addSuccessor bH.2.2 bJ.2.2 "").bind fun h3 =>
  (h3.addSuccessor bI.2.2 bJ.2.2 "").map fun h4 => (h4, bJ.2.1)

/-- What `Part2` has written to `std::cout` when it returns. -/
def Part2_cout : Option String :=
  Part2_built.bind fun s =>
    Function.toGraphViz s.1 s.2 ("" ++ "Part2 Demo\n" ++ "Generated GraphViz:\n\n")

/-- The scenario of the specification: `Function` "main", blocks "one" and
"two", then the edges entry->one with tag "t1" and entry->two with tag "t2". -/
def scenarioMain : Option (Heap × Function) :=
  let m := Function.ctor Heap.empty "main"
  let one := Function.createBasicBlock m.1 m.2 "one"
  let two := Function.createBasicBlock one.1 one.2.1 "two"
  (addSuccessors two.1 two.2.1.getEntryBlock [(one.2.2, "t1"), (two.2.2, "t2")]).map
    fun h => (h, two.2.1)

/-- The scenario of the specification with blocks added in the order A, B, C:
the free store, the `Function` and the pointers to A, B and C. -/
def scenarioABC : Heap × Function × BlockPtr × BlockPtr × BlockPtr :=
  let f := Function.ctor Heap.empty "f"
  let bA := Function.createBasicBlock f.1 f.2 "A"
  let bB := Function.createBasicBlock bA.1 bA.2.1 "B"
  let bC := Function.createBasicBlock bB.1 bB.2.1 "C"
  (bC.1, bC.2.1, bA.2.2, bB.2.2, bC.2.2)

/-! ## The text the specification prescribes for the export -/

/-- The edge statement of the specification's grammar, with its newline. -/
def specEdgeLine (blockName successorName tag : String) : String :=
  "  \"" ++ blockName ++ "\" -> \"" ++ successorName ++ "\" [label=\"" ++ tag ++ "\"];\n"

/-- The name of the block a pointer points at. -/
def specNameAt (h : Heap) (p : BlockPtr) : String :=
  match h.deref p with
  | some b => b.getName
  | none => ""

/-- The edges of a block sorted by the lexicographic order of their tags. -/
def specEdgesByTag (b : BasicBlock) : SuccMap :=
  b.getSuccessors.insertionSort (fun e1 e2 => strLess e1.1 e2.1 = true)

/-- The edge statements of one block, in tag order. -/
def specBlockLines (h : Heap) (p : BlockPtr) : List String :=
  match h.deref p with
  | some b => (specEdgesByTag b).map fun e => specEdgeLine b.getName (specNameAt h e.2) e.1
  | none => []

/-- The lines of a text one after the other. -/
def specConcat : List String → String
  | [] => ""
  | l :: ls => l ++ specConcat ls

/-- The whole export: header, the edge statements of the blocks in sequence
order, footer. -/
def specGraphViz (h : Heap) (f : Function) : String :=
  "digraph " ++ f.getName ++ " \x7b\n"
    ++ specConcat (f.getBasicBlocks.flatMap (specBlockLines h)) ++ "\x7d\n"

/-! ## The class `Module` and the free store of `Function` objects -/

/-- A value of type `Function*`: `none` is `nullptr`. -/
abbrev FunctionPtr := Option Nat

/-- The class `Module`. -/
structure Module where
  m_Name : String
  m_Functions : List FunctionPtr
  deriving DecidableEq, Repr

/-- The whole free store: the `BasicBlock` objects and the `Function` objects;
cell `a` of `functions` holds the `Function` at address `a`, or `none` once it
has been deleted. -/
structure Store where
  blocks : Heap
  functions : List (Option Function)
  deriving DecidableEq, Repr

/-- The destructor of `Function`. The class declares none, so the implicitly
defined one runs: it destroys the members, and destroying a
`std::vector<BasicBlock*>` releases none of the blocks its elements point at. -/
def Function.dtor (h : Heap) (_self : Function) : Heap := h

namespace Store

/-- The free store before any allocation. -/
def empty : Store := { blocks := Heap.empty, functions := [] }

/-- Reading `*p` for a `Function*`: `none` when `p` is null or not live. -/
def derefFunction (st : Store) : FunctionPtr → Option Function
  | none => none
  | some a => (st.functions.get? a).join

/-- Overwriting the live `Function` at `p`. -/
def storeFunction (st : Store) (p : FunctionPtr) (f : Function) : Option Store :=
  match p, st.derefFunction p with
  | some a, some _ => some { st with functions := st.functions.set a (some f) }
  | _, _ => none

/-- The statement `delete p` for a `Function*`: nothing for `nullptr`; for a
live object the destructor runs and the object is released; undefined for an
address that is not live. -/
def deleteFunction (st : Store) : FunctionPtr → Option Store
  | none => some st
  | some a =>
    match st.derefFunction (some a) with
    | some f => some { blocks := Function.dtor st.blocks f,
                       functions := st.functions.set a none }
    | none => none

/-- The call `fp->createBasicBlock(name)` through a pointer. -/
def createBasicBlock (st : Store) (fp : FunctionPtr) (name : String) :
    Option (Store × BlockPtr) :=
  match st.derefFunction fp with
  | none => none
  | some f =>
    (storeFunction { st with blocks := (Function.createBasicBlock st.blocks f name).1 } fp
      (Function.createBasicBlock st.blocks f name).2.1).map
      fun st1 => (st1, (Function.createBasicBlock st.blocks f name).2.2)

/-- The calls `fp->createBasicBlock(n1)`, ..., `fp->createBasicBlock(nk)`; the
returned pointers are collected in call order. -/
def createBasicBlocks (st : Store) (fp : FunctionPtr) :
    List String → Option (Store × List BlockPtr)
  | [] => some (st, [])
  | n :: ns =>
    match st.createBasicBlock fp n with
    | none => none
    | some r =>
      match createBasicBlocks r.1 fp ns with
      | none => none
      | some r1 => some (r1.1, r.2 :: r1.2)

/-- The call `fp->removeBasicBlock(name)` through a pointer. -/
def removeBasicBlock (st : Store) (fp : FunctionPtr) (name : String) : Option Store :=
  match st.derefFunction fp with
  | none => none
  | some f =>
    match Function.removeBasicBlock st.blocks f name with
    | none => none
    | some r => storeFunction { st with blocks := r.1 } fp r.2

/-- The call `fp->getEntryBlock()` through a pointer. -/
def getEntryBlock (st : Store) (fp : FunctionPtr) : Option BlockPtr :=
  (st.derefFunction fp).map Function.getEntryBlock

/-- The call `fp->getBasicBlocks()` through a pointer. -/
def getBasicBlocks (st : Store) (fp : FunctionPtr) : Option (List BlockPtr) :=
  (st.derefFunction fp).map Function.getBasicBlocks

/-- The calls `p->addSuccessor(target, tag)` for the pairs of a list. -/
def addSuccessors (st : Store) (p : BlockPtr) (calls : List (BlockPtr × String)) :
    Option Store :=
  (Revng.addSuccessors st.blocks p calls).map fun h => { st with blocks := h }

end Store

/-- The call `std::find_if(functions.begin(), functions.end(), pred)` with the
predicate `func->getName() == name`, as the offset of the returned iterator
from `begin()`; the offset of `end()` is the length. -/
def find_if_Function (st : Store) (name : String) : List FunctionPtr → Option Nat
  | [] => some 0
  | func :: rest =>
    match st.derefFunction func with
    | none => none
    | some f =>
      if f.getName = name then some 0
      else (find_if_Function st name rest).map (· + 1)

namespace Module

/-- The constructor `Module(name)`: the function sequence starts empty. -/
def ctor (name : String) : Module :=
  { m_Name := name, m_Functions := [] }

/-- The method `createFunction`; the third component is the returned pointer. -/
def createFunction (st : Store) (self : Module) (name : String) :
    Store × Module × FunctionPtr :=
  let r := Function.ctor st.blocks name
  ({ blocks := r.1, functions := st.functions ++ [some r.2] },
   { self with m_Functions := self.m_Functions ++ [some st.functions.length] },
   some st.functions.length)

/-- The method `insertFunction`. -/
def insertFunction (self : Module) (function : FunctionPtr) : Module :=
  if function = none then self
  else { self with m_Functions := self.m_Functions ++ [function] }

/-- The method `removeFunction`. -/
def removeFunction (st : Store) (self : Module) (name : String) : Option (Store × Module) :=
  match find_if_Function st name self.m_Functions with
  | none => none
  | some it =>
    if it ≠ self.m_Functions.length then
      match st.deleteFunction (self.m_Functions.getD it none) with
      | none => none
      | some st1 =>
        some (st1, { self with m_Functions := self.m_Functions.eraseIdx it })
    else some (st, self)

/-- The getter `getFunctions`. -/
def getFunctions (self : Module) : List FunctionPtr := self.m_Functions

/-- The destructor of `Module`. The class declares none, so the implicitly
defined one runs: destroying a `std::vector<Function*>` releases none of the
functions its elements point at. -/
def dtor (st : Store) (_self : Module) : Store := st

end Module

/-- The run of `Part1` up to the report of the size of `blabla`: the free
store, the module, `mainFunc` and `blablaFunc`. -/
def Part1_module : Option (Store × Module × FunctionPtr × FunctionPtr) :=
  let r1 := Module.createFunction Store.empty (Module.ctor "example.cpp") "main"
  let r2 := Module.createFunction r1.1 r1.2.1 "blabla"
  (r2.1.createBasicBlocks r1.2.2 ["some block", "bla bla", "to be deleted", "exit"]).bind
    fun a =>
  (a.1.createBasicBlocks r2.2.2 ["2nd block", "blabla", "exit"]).map
    fun b => (b.1, r2.2.1, r1.2.2, r2.2.2)

/-- The free store when `Part1` returns: after
`mainFunc->removeBasicBlock("to be deleted")` and `delete module`. -/
def Part1_end : Option Store :=
  Part1_module.bind fun s =>
  (s.1.removeBasicBlock s.2.2.1 "to be deleted").map fun st => Module.dtor st s.2.1

/-- The scenario of the specification on a `Module`: module "m", function
"main", blocks "one" and "two", the edges entry->one with tag "t1" and
entry->two with tag "t2": the free store, the module and the pointer to "main". -/
def scenarioModule : Option (Store × Module × FunctionPtr) :=
  let r := Module.createFunction Store.empty (Module.ctor "m") "main"
  (r.1.createBasicBlocks r.2.2 ["one", "two"]).bind fun a =>
  (a.1.getEntryBlock r.2.2).bind fun entry =>
  (a.1.addSuccessors entry [(a.2.getD 0 none, "t1"), (a.2.getD 1 none, "t2")]).map
    fun st => (st, r.2.1, r.2.2)

/-- The scenario of the specification followed by `removeFunction("main")`. -/
def scenarioModule_removed : Option (Store × Module) :=
  scenarioModule.bind fun s => Module.removeFunction s.1 s.2.1 "main"

/-! ## Sequences of calls on one `Function` -/

/-- A call a program can make on a `Function` or on the blocks around it. -/
inductive Call where
  | createBasicBlock (name : String)
  | insertBasicBlock (basicBlock : BlockPtr)
  | removeBasicBlock (name : String)
  | toGraphViz
  | newBasicBlock (name : String)
  | addSuccessor (p successor : BlockPtr) (tag : String)
  | removeSuccessor (p : BlockPtr) (tag : String)
  deriving DecidableEq, Repr

/-- The free store of blocks, one `Function` and what has been written to
`std::cout`. -/
structure State where
  heap : Heap
  function : Function
  cout : String
  deriving DecidableEq, Repr

/-- One call on a state; `none` when the call has undefined behaviour. -/
def runCall (s : State) : Call → Option State
  | .createBasicBlock name =>
    some { s with heap := (Function.createBasicBlock s.heap s.function name).1,
                  function := (Function.createBasicBlock s.heap s.function name).2.1 }
  | .insertBasicBlock basicBlock =>
    some { s with function := s.function.insertBasicBlock basicBlock }
  | .removeBasicBlock name =>
    (Function.removeBasicBlock s.heap s.function name).map
      fun r => { s with heap := r.1, function := r.2 }
  | .toGraphViz =>
    (Function.toGraphViz s.heap s.function s.cout).map fun out => { s with cout := out }
  | .newBasicBlock name =>
    some { s with heap := (s.heap.alloc (BasicBlock.ctor name)).1 }
  | .addSuccessor p successor tag =>
    (s.heap.addSuccessor p successor tag).map fun h => { s with heap := h }
  | .removeSuccessor p tag =>
    (s.heap.removeSuccessor p tag).map fun h => { s with heap := h }

/-- A finite sequence of calls, one after the other. -/
def runCalls (s : State) : List Call → Option State
  | [] => some s
  | c :: cs =>
    match runCall s c with
    | none => none
    | some s1 => runCalls s1 cs

/-- The property `toGraphViz` relies on: every pointer of the block sequence
points at a live block, and every edge target of these blocks is a pointer of
the block sequence that points at a live block. -/
def EdgesLive (h : Heap) (f : Function) : Prop :=
  ∀ p ∈ f.getBasicBlocks, ∃ b, h.deref p = some b ∧
    ∀ e ∈ b.getSuccessors, e.2 ∈ f.getBasicBlocks ∧ ∃ s, h.deref e.2 = some s

/-! # Theorems -/

/-! ## The order of the keys -/

theorem char_eq_of_toNat_eq {a b : Char} (h : a.toNat = b.toNat) : a = b := by
  apply Char.ext
  apply UInt32.ext
  exact h

theorem charsLess_irrefl (a : List Char) : charsLess a a = false := by
  induction a with
  | nil => rfl
  | cons c cs ih => simp [charsLess, ih]

theorem charsLess_trans : ∀ a b c : List Char,
    charsLess a b = true → charsLess b c = true → charsLess a c = true
  | _, [], _ => by simp [charsLess]
  | _, _ :: _, [] => by simp [charsLess]
  | [], _ :: _, _ :: _ => by simp [charsLess]
  | x :: xs, y :: ys, z :: zs => by
    intro h1 h2
    simp only [charsLess] at h1 h2 ⊢
    split_ifs at h1 h2 ⊢ <;> first
      | rfl
      | omega
      | exact charsLess_trans xs ys zs h1 h2

theorem charsLess_total : ∀ a b : List Char,
    charsLess a b = false → charsLess b a = false → a = b
  | [], [] => by simp
  | [], _ :: _ => by simp [charsLess]
  | _ :: _, [] => by simp [charsLess]
  | x :: xs, y :: ys => by
    intro h1 h2
    simp only [charsLess] at h1 h2
    split_ifs at h1 h2
    have hxy : x = y := char_eq_of_toNat_eq (by omega)
    rw [hxy, charsLess_total xs ys h1 h2]

theorem strLess_irrefl (a : String) : strLess a a = false :=
  charsLess_irrefl a.data

theorem strLess_trans {a b c : String} (h1 : strLess a b = true) (h2 : strLess b c = true) :
    strLess a c = true :=
  charsLess_trans a.data b.data c.data h1 h2

theorem strLess_total {a b : String} (h1 : strLess a b = false) (h2 : strLess b a = false) :
    a = b := by
  cases a; cases b
  simp only [strLess] at h1 h2
  rw [charsLess_total _ _ h1 h2]

theorem strLess_ne {a b : String} (h : strLess a b = true) : a ≠ b := by
  intro e
  rw [e, strLess_irrefl] at h
  exact Bool.noConfusion h

theorem strLess_asymm {a b : String} (h : strLess a b = true) : strLess b a = false := by
  cases hb : strLess b a
  · rfl
  · have := strLess_trans h hb
    rw [strLess_irrefl] at this
    exact Bool.noConfusion this

theorem char_lt_iff (x y : Char) : x < y ↔ x.toNat < y.toNat := Iff.rfl

theorem charsLess_iff_lex : ∀ a b : List Char,
    charsLess a b = true ↔ List.Lex (fun x y : Char => x < y) a b
  | [], [] => by
    simp only [charsLess]
    constructor
    · intro h; cases h
    · intro h; cases h
  | _ :: _, [] => by
    simp only [charsLess]
    constructor
    · intro h; cases h
    · intro h; cases h
  | [], _ :: _ => by
    simp only [charsLess]
    exact ⟨fun _ => List.Lex.nil, fun _ => trivial⟩
  | x :: xs, y :: ys => by
    simp only [charsLess]
    by_cases h1 : x.toNat < y.toNat
    · rw [if_pos h1]
      exact ⟨fun _ => List.Lex.rel ((char_lt_iff x y).mpr h1), fun _ => rfl⟩
    · rw [if_neg h1]
      by_cases h2 : y.toNat < x.toNat
      · rw [if_pos h2]
        constructor
        · intro h; cases h
        · intro h
          cases h with
          | cons _ => omega
          | rel hr => exact absurd ((char_lt_iff x y).mp hr) h1
      · rw [if_neg h2]
        have hxy : x = y := char_eq_of_toNat_eq (by omega)
        subst hxy
        rw [charsLess_iff_lex xs ys]
        exact List.Lex.cons_iff.symm

/-- The comparison `strLess` is the lexicographic order `<` of `String`. -/
theorem strLess_iff_lt (a b : String) : strLess a b = true ↔ a < b := by
  rw [String.lt_iff_toList_lt]
  exact charsLess_iff_lex a.data b.data

/-! ## The successor map -/

theorem mem_mapAssign_weak {m : SuccMap} {tag : String} {s : BlockPtr} {e : String × BlockPtr}
    (h : e ∈ mapAssign m tag s) : e = (tag, s) ∨ e ∈ m := by
  induction m with
  | nil =>
    simp only [mapAssign, List.mem_singleton] at h
    exact Or.inl h
  | cons kv rest ih =>
    obtain ⟨k, v⟩ := kv
    simp only [mapAssign] at h
    split_ifs at h with h1 h2
    · rcases List.mem_cons.mp h with h | h
      · exact Or.inl h
      · exact Or.inr h
    · rcases List.mem_cons.mp h with h | h
      · exact Or.inr (h ▸ List.mem_cons_self _ _)
      · rcases ih h with h | h
        · exact Or.inl h
        · exact Or.inr (List.mem_cons_of_mem _ h)
    · have hk : k = tag := strLess_total (by simpa using h2) (by simpa using h1)
      rcases List.mem_cons.mp h with h | h
      · exact Or.inl (by rw [h, hk])
      · exact Or.inr (List.mem_cons_of_mem _ h)

theorem ordered_mapAssign {m : SuccMap} (hm : Ordered m) (tag : String) (s : BlockPtr) :
    Ordered (mapAssign m tag s) := by
  induction m with
  | nil => simp [mapAssign, Ordered]
  | cons kv rest ih =>
    obtain ⟨k, v⟩ := kv
    have hk := (List.pairwise_cons.mp hm).1
    have hrest : Ordered rest := (List.pairwise_cons.mp hm).2
    simp only [mapAssign]
    split_ifs with h1 h2
    · refine List.pairwise_cons.mpr ⟨?_, hm⟩
      intro e he
      rcases List.mem_cons.mp he with he | he
      · rw [he]; exact h1
      · exact strLess_trans h1 (hk e he)
    · refine List.pairwise_cons.mpr ⟨?_, ih hrest⟩
      intro e he
      rcases mem_mapAssign_weak he with he | he
      · rw [he]; exact h2
      · exact hk e he
    · exact List.pairwise_cons.mpr ⟨hk, hrest⟩

theorem mem_mapAssign {m : SuccMap} (hm : Ordered m) (tag : String) (s : BlockPtr)
    (e : String × BlockPtr) :
    e ∈ mapAssign m tag s ↔ e = (tag, s) ∨ (e ∈ m ∧ e.1 ≠ tag) := by
  induction m with
  | nil => simp [mapAssign]
  | cons kv rest ih =>
    obtain ⟨k, v⟩ := kv
    have hk := (List.pairwise_cons.mp hm).1
    have hrest : Ordered rest := (List.pairwise_cons.mp hm).2
    simp only [mapAssign]
    split_ifs with h1 h2
    · simp only [List.mem_cons]
      constructor
      · rintro (h | h | h)
        · exact Or.inl h
        · exact Or.inr ⟨Or.inl h, by rw [h]; exact (strLess_ne h1).symm⟩
        · exact Or.inr ⟨Or.inr h, (strLess_ne (strLess_trans h1 (hk e h))).symm⟩
      · rintro (h | ⟨h | h, _⟩)
        · exact Or.inl h
        · exact Or.inr (Or.inl h)
        · exact Or.inr (Or.inr h)
    · simp only [List.mem_cons, ih hrest]
      constructor
      · rintro (h | h | ⟨h, hne⟩)
        · exact Or.inr ⟨Or.inl h, by rw [h]; exact strLess_ne h2⟩
        · exact Or.inl h
        · exact Or.inr ⟨Or.inr h, hne⟩
      · rintro (h | ⟨h | h, hne⟩)
        · exact Or.inr (Or.inl h)
        · exact Or.inl h
        · exact Or.inr (Or.inr ⟨h, hne⟩)
    · have hkt : k = tag := strLess_total (by simpa using h2) (by simpa using h1)
      subst hkt
      simp only [List.mem_cons]
      constructor
      · rintro (h | h)
        · exact Or.inl h
        · exact Or.inr ⟨Or.inr h, (strLess_ne (hk e h)).symm⟩
      · rintro (h | ⟨h | h, hne⟩)
        · exact Or.inl h
        · exact absurd (by rw [h]) hne
        · exact Or.inr h

theorem mem_mapErase_weak {m : SuccMap} {tag : String} {e : String × BlockPtr}
    (h : e ∈ mapErase m tag) : e ∈ m := by
  induction m with
  | nil => simp [mapErase] at h
  | cons kv rest ih =>
    obtain ⟨k, v⟩ := kv
    simp only [mapErase] at h
    split_ifs at h with h1 h2
    · exact h
    · rcases List.mem_cons.mp h with h | h
      · exact h ▸ List.mem_cons_self _ _
      · exact List.mem_cons_of_mem _ (ih h)
    · exact List.mem_cons_of_mem _ h

theorem ordered_mapErase {m : SuccMap} (hm : Ordered m) (tag : String) :
    Ordered (mapErase m tag) := by
  induction m with
  | nil => simp [mapErase, Ordered]
  | cons kv rest ih =>
    obtain ⟨k, v⟩ := kv
    have hk := (List.pairwise_cons.mp hm).1
    have hrest : Ordered rest := (List.pairwise_cons.mp hm).2
    simp only [mapErase]
    split_ifs with h1 h2
    · exact hm
    · exact List.pairwise_cons.mpr ⟨fun e he => hk e (mem_mapErase_weak he), ih hrest⟩
    · exact hrest

theorem mem_mapErase {m : SuccMap} (hm : Ordered m) (tag : String) (e : String × BlockPtr) :
    e ∈ mapErase m tag ↔ e ∈ m ∧ e.1 ≠ tag := by
  induction m with
  | nil => simp [mapErase]
  | cons kv rest ih =>
    obtain ⟨k, v⟩ := kv
    have hk := (List.pairwise_cons.mp hm).1
    have hrest : Ordered rest := (List.pairwise_cons.mp hm).2
    simp only [mapErase]
    split_ifs with h1 h2
    · simp only [List.mem_cons]
      constructor
      · rintro (h | h)
        · exact ⟨Or.inl h, by rw [h]; exact (strLess_ne h1).symm⟩
        · exact ⟨Or.inr h, (strLess_ne (strLess_trans h1 (hk e h))).symm⟩
      · exact fun h => h.1
    · simp only [List.mem_cons, ih hrest]
      constructor
      · rintro (h | ⟨h, hne⟩)
        · exact ⟨Or.inl h, by rw [h]; exact strLess_ne h2⟩
        · exact ⟨Or.inr h, hne⟩
      · rintro ⟨h | h, hne⟩
        · exact Or.inl h
        · exact Or.inr ⟨h, hne⟩
    · have hkt : k = tag := strLess_total (by simpa using h2) (by simpa using h1)
      subst hkt
      simp only [List.mem_cons]
      constructor
      · intro h
        exact ⟨Or.inr h, (strLess_ne (hk e h)).symm⟩
      · rintro ⟨h | h, hne⟩
        · exact absurd (by rw [h]) hne
        · exact h

theorem ordered_nodup {m : SuccMap} (hm : Ordered m) : m.Nodup := by
  have h : m.Pairwise (fun a b => a ≠ b) :=
    List.Pairwise.imp (fun {a b} h (e : a = b) => strLess_ne h (by rw [e])) hm
  exact h

theorem ordered_nodup_keys {m : SuccMap} (hm : Ordered m) : (m.map Prod.fst).Nodup := by
  rw [List.Nodup, List.pairwise_map]
  exact List.Pairwise.imp (fun h => strLess_ne h) hm

theorem ordered_functional {m : SuccMap} (hm : Ordered m) {tag : String} {s1 s2 : BlockPtr}
    (h1 : (tag, s1) ∈ m) (h2 : (tag, s2) ∈ m) : s1 = s2 := by
  induction m with
  | nil => simp at h1
  | cons kv rest ih =>
    have hk := (List.pairwise_cons.mp hm).1
    have hrest : Ordered rest := (List.pairwise_cons.mp hm).2
    rcases List.mem_cons.mp h1 with e1 | e1 <;> rcases List.mem_cons.mp h2 with e2 | e2
    · have := e1.trans e2.symm
      exact (Prod.mk.inj this).2
    · exact absurd rfl (strLess_ne (e1 ▸ hk _ e2))
    · exact absurd rfl (strLess_ne (e2 ▸ hk _ e1))
    · exact ih hrest e1 e2

theorem ordered_ext {m1 m2 : SuccMap} (h1 : Ordered m1) (h2 : Ordered m2)
    (h : ∀ e, e ∈ m1 ↔ e ∈ m2) : m1 = m2 := by
  induction m1 generalizing m2 with
  | nil =>
    cases m2 with
    | nil => rfl
    | cons b _ => exact absurd ((h b).mpr (List.mem_cons_self _ _)) (List.not_mem_nil _)
  | cons a r1 ih =>
    cases m2 with
    | nil => exact absurd ((h a).mp (List.mem_cons_self _ _)) (List.not_mem_nil _)
    | cons b r2 =>
      have ha := (List.pairwise_cons.mp h1).1
      have hb := (List.pairwise_cons.mp h2).1
      have hab : a = b := by
        rcases List.mem_cons.mp ((h a).mp (List.mem_cons_self _ _)) with e | e
        · exact e
        · rcases List.mem_cons.mp ((h b).mpr (List.mem_cons_self _ _)) with e2 | e2
          · exact e2.symm
          · have := strLess_trans (hb a e) (ha b e2)
            rw [strLess_irrefl] at this
            exact Bool.noConfusion this
      subst hab
      congr 1
      refine ih (List.pairwise_cons.mp h1).2 (List.pairwise_cons.mp h2).2 ?_
      intro e
      constructor
      · intro he
        rcases List.mem_cons.mp ((h e).mp (List.mem_cons_of_mem _ he)) with e2 | e2
        · exact absurd (e2 ▸ ha e he) (by rw [strLess_irrefl]; simp)
        · exact e2
      · intro he
        rcases List.mem_cons.mp ((h e).mpr (List.mem_cons_of_mem _ he)) with e2 | e2
        · exact absurd (e2 ▸ hb e he) (by rw [strLess_irrefl]; simp)
        · exact e2

theorem not_mem_keys_of_less {k tag : String} {v : BlockPtr} {rest : SuccMap}
    (hm : Ordered ((k, v) :: rest)) (h : strLess tag k = true) :
    tag ∉ ((k, v) :: rest).map Prod.fst := by
  intro hc
  rcases List.mem_map.mp hc with ⟨e, he, hek⟩
  rcases List.mem_cons.mp he with e1 | e1
  · exact strLess_ne h (by rw [← hek, e1])
  · exact strLess_ne (strLess_trans h ((List.pairwise_cons.mp hm).1 e e1)) hek.symm

theorem mem_keys_cons_of_less {k tag : String} {v : BlockPtr} {rest : SuccMap}
    (h : strLess k tag = true) :
    tag ∈ ((k, v) :: rest).map Prod.fst ↔ tag ∈ rest.map Prod.fst := by
  simp only [List.map_cons, List.mem_cons]
  constructor
  · rintro (e | e)
    · exact absurd e.symm (strLess_ne h)
    · exact e
  · exact Or.inr

theorem mem_keys_cons_of_equiv {k tag : String} {v : BlockPtr} {rest : SuccMap}
    (h1 : ¬ strLess tag k = true) (h2 : ¬ strLess k tag = true) :
    tag ∈ ((k, v) :: rest).map Prod.fst := by
  have hkt : k = tag := strLess_total (by simpa using h2) (by simpa using h1)
  simp [hkt]

theorem length_mapAssign {m : SuccMap} (hm : Ordered m) (tag : String) (s : BlockPtr) :
    (mapAssign m tag s).length =
      if tag ∈ m.map Prod.fst then m.length else m.length + 1 := by
  induction m with
  | nil => simp [mapAssign]
  | cons kv rest ih =>
    obtain ⟨k, v⟩ := kv
    have hrest : Ordered rest := (List.pairwise_cons.mp hm).2
    simp only [mapAssign]
    by_cases h1 : strLess tag k = true
    · rw [if_pos h1, if_neg (not_mem_keys_of_less hm h1)]
      rfl
    · rw [if_neg h1]
      by_cases h2 : strLess k tag = true
      · rw [if_pos h2, List.length_cons, ih hrest]
        by_cases h3 : tag ∈ rest.map Prod.fst
        · rw [if_pos h3, if_pos ((mem_keys_cons_of_less h2).mpr h3)]
          rfl
        · rw [if_neg h3, if_neg (fun hc => h3 ((mem_keys_cons_of_less h2).mp hc))]
          rfl
      · rw [if_neg h2, if_pos (mem_keys_cons_of_equiv h1 h2)]
        rfl

theorem length_mapErase {m : SuccMap} (hm : Ordered m) (tag : String) :
    (mapErase m tag).length =
      if tag ∈ m.map Prod.fst then m.length - 1 else m.length := by
  induction m with
  | nil => simp [mapErase]
  | cons kv rest ih =>
    obtain ⟨k, v⟩ := kv
    have hrest : Ordered rest := (List.pairwise_cons.mp hm).2
    simp only [mapErase]
    by_cases h1 : strLess tag k = true
    · rw [if_pos h1, if_neg (not_mem_keys_of_less hm h1)]
    · rw [if_neg h1]
      by_cases h2 : strLess k tag = true
      · rw [if_pos h2, List.length_cons, ih hrest]
        by_cases h3 : tag ∈ rest.map Prod.fst
        · rw [if_pos h3, if_pos ((mem_keys_cons_of_less h2).mpr h3)]
          have hpos : 0 < rest.length := by
            rcases List.mem_map.mp h3 with ⟨e, he, _⟩
            exact List.length_pos_of_mem he
          simp only [List.length_cons]
          omega
        · rw [if_neg h3, if_neg (fun hc => h3 ((mem_keys_cons_of_less h2).mp hc))]
          rfl
      · rw [if_neg h2, if_pos (mem_keys_cons_of_equiv h1 h2)]
        simp

theorem mapErase_absent {m : SuccMap} (hm : Ordered m) {tag : String}
    (h : tag ∉ m.map Prod.fst) : mapErase m tag = m := by
  apply ordered_ext (ordered_mapErase hm tag) hm
  intro e
  rw [mem_mapErase hm]
  constructor
  · exact fun he => he.1
  · intro he
    exact ⟨he, fun hc => h (List.mem_map.mpr ⟨e, he, hc⟩)⟩

theorem ordered_filter {m : SuccMap} (hm : Ordered m) (q : String × BlockPtr → Bool) :
    Ordered (m.filter q) :=
  List.Pairwise.sublist (List.filter_sublist m) hm

theorem built_ordered {b : BasicBlock} (hb : b.Built) : Ordered b.getSuccessors := by
  induction hb with
  | ctor name => exact List.Pairwise.nil
  | addSuccessor successor tag _ ih => exact ordered_mapAssign ih tag successor
  | removeSuccessor tag _ ih => exact ordered_mapErase ih tag

theorem mapAssign_last {m : SuccMap} {tag : String} (s : BlockPtr)
    (hlt : ∀ e ∈ m, strLess e.1 tag = true) : mapAssign m tag s = m ++ [(tag, s)] := by
  induction m with
  | nil => rfl
  | cons kv rest ih =>
    obtain ⟨k, v⟩ := kv
    have hk : strLess k tag = true := hlt (k, v) (List.mem_cons_self _ _)
    have hk1 : ¬ strLess tag k = true := by
      rw [strLess_asymm hk]
      simp
    simp only [mapAssign, if_neg hk1, if_pos hk, List.cons_append]
    rw [ih (fun e he => hlt e (List.mem_cons_of_mem _ he))]

/-- Every well-formed map is the successor map of a block built through the
public methods, so `Ordered` describes exactly the blocks a program can hold. -/
theorem ordered_built (name : String) (m : SuccMap) (hm : Ordered m) :
    BasicBlock.Built { m_Name := name, m_Successors := m } := by
  induction m using List.reverseRecOn with
  | nil => exact BasicBlock.Built.ctor name
  | append_singleton init kv ih =>
    obtain ⟨k, v⟩ := kv
    have hsplit := List.pairwise_append.mp hm
    have hinit : Ordered init := hsplit.1
    have hlt : ∀ e ∈ init, strLess e.1 k = true :=
      fun e he => hsplit.2.2 e he (k, v) (List.mem_singleton_self _)
    have hb := BasicBlock.Built.addSuccessor v k (ih hinit)
    simp only [BasicBlock.addSuccessor, mapAssign_last v hlt] at hb
    exact hb

theorem built_iff_ordered (b : BasicBlock) : b.Built ↔ Ordered b.getSuccessors :=
  ⟨built_ordered, fun h => ordered_built b.m_Name b.m_Successors h⟩

/-! ## The free store -/

theorem deref_alloc_new (h : Heap) (b : BasicBlock) :
    (h.alloc b).1.deref (h.alloc b).2 = some b := by
  simp [Heap.alloc, Heap.deref]

theorem deref_alloc_fresh (h : Heap) (b : BasicBlock) :
    h.deref (h.alloc b).2 = none := by
  simp [Heap.alloc, Heap.deref]

theorem deref_alloc_old (h : Heap) (b : BasicBlock) {p : BlockPtr} {c : BasicBlock}
    (hp : h.deref p = some c) : (h.alloc b).1.deref p = some c := by
  cases p with
  | none => simp [Heap.deref] at hp
  | some a =>
    simp only [Heap.deref, Heap.alloc] at hp ⊢
    have hlt : a < h.cells.length := by
      by_contra hge
      rw [List.get?_eq_none.mpr (by omega)] at hp
      simp at hp
    rw [List.get?_eq_getElem?, List.getElem?_append_left hlt, ← List.get?_eq_getElem?]
    exact hp

theorem deref_lt {h : Heap} {a : Nat} {b : BasicBlock} (hp : h.deref (some a) = some b) :
    a < h.cells.length := by
  by_contra hge
  simp only [Heap.deref] at hp
  rw [List.get?_eq_none.mpr (by omega)] at hp
  simp at hp

theorem deref_set_same (h : Heap) (a : Nat) :
    Heap.deref { cells := h.cells.set a none } (some a) = none := by
  simp only [Heap.deref, List.get?_eq_getElem?]
  by_cases hlt : a < h.cells.length
  · rw [List.getElem?_set_self hlt]
    rfl
  · rw [List.getElem?_eq_none (by simp; omega)]
    rfl

theorem deref_set_other (h : Heap) (a : Nat) (v : Option BasicBlock) {q : BlockPtr}
    (hq : q ≠ some a) : Heap.deref { cells := h.cells.set a v } q = h.deref q := by
  cases q with
  | none => rfl
  | some c =>
    have hne : a ≠ c := fun e => hq (by rw [e])
    simp only [Heap.deref, List.get?_eq_getElem?]
    rw [List.getElem?_set_ne hne]

theorem delete_live {h : Heap} {a : Nat} {b : BasicBlock} (hp : h.deref (some a) = some b) :
    h.delete (some a) = some { cells := h.cells.set a none } := by
  simp only [Heap.delete, hp]

theorem store_name {h h1 : Heap} {p : BlockPtr} {b c : BasicBlock}
    (hp : h.deref p = some b) (hname : c.getName = b.getName) (hs : h.store p c = some h1)
    (q : BlockPtr) :
    (h1.deref q).map BasicBlock.getName = (h.deref q).map BasicBlock.getName := by
  cases p with
  | none => simp [Heap.deref] at hp
  | some a =>
    simp only [Heap.store, hp, Option.some.injEq] at hs
    subst hs
    by_cases hq : q = some a
    · subst hq
      have hlt := deref_lt hp
      have : Heap.deref { cells := h.cells.set a (some c) } (some a) = some c := by
        simp only [Heap.deref, List.get?_eq_getElem?]
        rw [List.getElem?_set_self hlt]
        rfl
      rw [this, hp]
      simp [hname]
    · rw [deref_set_other h a (some c) hq]

theorem heap_addSuccessor_name {h h1 : Heap} {p successor : BlockPtr} {tag : String}
    (hs : h.addSuccessor p successor tag = some h1) (q : BlockPtr) :
    (h1.deref q).map BasicBlock.getName = (h.deref q).map BasicBlock.getName := by
  unfold Heap.addSuccessor at hs
  cases hp : h.deref p with
  | none => simp [hp] at hs
  | some b =>
    simp only [hp] at hs
    exact store_name hp (show (b.addSuccessor successor tag).getName = b.getName from rfl) hs q

theorem heap_removeSuccessor_name {h h1 : Heap} {p : BlockPtr} {tag : String}
    (hs : h.removeSuccessor p tag = some h1) (q : BlockPtr) :
    (h1.deref q).map BasicBlock.getName = (h.deref q).map BasicBlock.getName := by
  unfold Heap.removeSuccessor at hs
  cases hp : h.deref p with
  | none => simp [hp] at hs
  | some b =>
    simp only [hp] at hs
    exact store_name hp (show (b.removeSuccessor tag).getName = b.getName from rfl) hs q

/-! ## Scanning the block sequence -/

theorem find_if_absent {h : Heap} {name : String} {l : List BlockPtr}
    (habs : ∀ q ∈ l, ∃ c, h.deref q = some c ∧ c.getName ≠ name) :
    find_if h name l = some l.length := by
  induction l with
  | nil => rfl
  | cons q rest ih =>
    obtain ⟨c, hc, hne⟩ := habs q (List.mem_cons_self _ _)
    simp only [find_if, hc, if_neg hne]
    rw [ih (fun r hr => habs r (List.mem_cons_of_mem _ hr))]
    rfl

theorem find_if_first {h : Heap} {name : String} {pre post : List BlockPtr} {p : BlockPtr}
    {b : BasicBlock}
    (hpre : ∀ q ∈ pre, ∃ c, h.deref q = some c ∧ c.getName ≠ name)
    (hp : h.deref p = some b) (hname : b.getName = name) :
    find_if h name (pre ++ p :: post) = some pre.length := by
  induction pre with
  | nil => simp only [List.nil_append, find_if, hp, if_pos hname, List.length_nil]
  | cons q rest ih =>
    obtain ⟨c, hc, hne⟩ := hpre q (List.mem_cons_self _ _)
    have hrec := ih (fun r hr => hpre r (List.mem_cons_of_mem _ hr))
    show find_if h name (q :: (rest ++ p :: post)) = some (rest.length + 1)
    simp only [find_if, hc, if_neg hne, hrec]
    rfl

theorem eraseIdx_length_append (pre post : List BlockPtr) (p : BlockPtr) :
    (pre ++ p :: post).eraseIdx pre.length = pre ++ post := by
  induction pre with
  | nil => rfl
  | cons q rest ih => simp only [List.cons_append, List.length_cons, List.eraseIdx_cons_succ, ih]

theorem getD_length_append (pre post : List BlockPtr) (p : BlockPtr) :
    (pre ++ p :: post).getD pre.length none = p := by
  induction pre with
  | nil => rfl
  | cons q rest ih => simpa using ih

theorem removeBasicBlock_first {h : Heap} {f : Function} {name : String}
    {pre post : List BlockPtr} {a : Nat} {b : BasicBlock}
    (hseq : f.m_BasicBlocks = pre ++ some a :: post)
    (hpre : ∀ q ∈ pre, ∃ c, h.deref q = some c ∧ c.getName ≠ name)
    (hp : h.deref (some a) = some b) (hname : b.getName = name) :
    Function.removeBasicBlock h f name =
      some ({ cells := h.cells.set a none },
        { f with m_BasicBlocks := pre ++ post,
                 m_EntryBlock := if some a = f.m_EntryBlock then none else f.m_EntryBlock }) := by
  have hlen : pre.length ≠ (pre ++ some a :: post).length := by
    simp only [List.length_append, List.length_cons]
    omega
  simp only [Function.removeBasicBlock, hseq, find_if_first hpre hp hname, hlen, ne_eq,
    not_false_eq_true, if_true, getD_length_append, delete_live hp,
    eraseIdx_length_append]

theorem removeBasicBlock_absent {h : Heap} {f : Function} {name : String}
    (habs : ∀ q ∈ f.m_BasicBlocks, ∃ c, h.deref q = some c ∧ c.getName ≠ name) :
    Function.removeBasicBlock h f name = some (h, f) := by
  simp only [Function.removeBasicBlock, find_if_absent habs, ne_eq, not_true_eq_false,
    if_false]

/-- While the entry reference of a reachable `Function` is non-null it is the
first pointer of the block sequence and points at a live block named "entry". -/
theorem reachable_entry_first {h : Heap} {f : Function} (hr : Reachable h f) :
    f.m_EntryBlock = none ∨
    ∃ a rest, f.m_EntryBlock = some a ∧ f.m_BasicBlocks = some a :: rest ∧
      (h.deref (some a)).map BasicBlock.getName = some "entry" := by
  induction hr with
  | ctor h name =>
    refine Or.inr ⟨h.cells.length, [], rfl, rfl, ?_⟩
    have := deref_alloc_new h (BasicBlock.ctor "entry")
    simp only [Heap.alloc] at this
    simp only [Function.ctor, Heap.alloc, this]
    rfl
  | @createBasicBlock h f name _ ih =>
    rcases ih with ih | ⟨a, rest, h1, h2, h3⟩
    · exact Or.inl ih
    · refine Or.inr ⟨a, rest ++ [(h.alloc (BasicBlock.ctor name)).2], h1, ?_, ?_⟩
      · simp only [Function.createBasicBlock, h2, List.cons_append]
      · cases hd : h.deref (some a) with
        | none => simp [hd] at h3
        | some b =>
          rw [hd] at h3
          show ((h.alloc (BasicBlock.ctor name)).1.deref (some a)).map _ = _
          rw [deref_alloc_old h _ hd]
          exact h3
  | @insertBasicBlock h f p _ ih =>
    rcases ih with ih | ⟨a, rest, h1, h2, h3⟩
    · left
      unfold Function.insertBasicBlock
      split_ifs <;> exact ih
    · right
      unfold Function.insertBasicBlock
      split_ifs
      · exact ⟨a, rest, h1, h2, h3⟩
      · exact ⟨a, rest ++ [p], h1, by simp only [h2, List.cons_append], h3⟩
  | @removeBasicBlock h h1 f f1 name _ hrem ih =>
    unfold Function.removeBasicBlock at hrem
    cases hfind : find_if h name f.m_BasicBlocks with
    | none => simp [hfind] at hrem
    | some it =>
      simp only [hfind] at hrem
      by_cases hend : it = f.m_BasicBlocks.length
      · simp only [hend, ne_eq, not_true_eq_false, if_false, Option.some.injEq,
          Prod.mk.injEq] at hrem
        rw [← hrem.1, ← hrem.2]
        exact ih
      · simp only [hend, ne_eq, not_false_eq_true, if_true] at hrem
        cases hdel : h.delete (f.m_BasicBlocks.getD it none) with
        | none =>
          rw [hdel] at hrem
          cases hrem
        | some h2 =>
          rw [hdel] at hrem
          simp only [Option.some.injEq, Prod.mk.injEq] at hrem
          obtain ⟨hh, hf⟩ := hrem
          subst hh
          subst hf
          rcases ih with ih | ⟨a, rest, e1, e2, e3⟩
          · left
            show (if _ = f.m_EntryBlock then none else f.m_EntryBlock) = none
            split_ifs
            · rfl
            · exact ih
          · by_cases hpa : f.m_BasicBlocks.getD it none = some a
            · left
              show (if _ = f.m_EntryBlock then none else f.m_EntryBlock) = none
              rw [e1, if_pos hpa]
            · right
              have hit : it ≠ 0 := by
                intro h0
                apply hpa
                rw [h0, e2]
                rfl
              obtain ⟨j, hj⟩ := Nat.exists_eq_succ_of_ne_zero hit
              refine ⟨a, rest.eraseIdx j, ?_, ?_, ?_⟩
              · show (if _ = f.m_EntryBlock then none else f.m_EntryBlock) = some a
                rw [e1, if_neg hpa]
              · show f.m_BasicBlocks.eraseIdx it = _
                rw [e2, hj]
                rfl
              · cases hq : f.m_BasicBlocks.getD it none with
                | none =>
                  rw [hq] at hdel
                  simp only [Heap.delete, Option.some.injEq] at hdel
                  rw [← hdel]
                  exact e3
                | some c =>
                  rw [hq] at hdel hpa
                  simp only [Heap.delete] at hdel
                  cases hc : h.deref (some c) with
                  | none => simp [hc] at hdel
                  | some bc =>
                    simp only [hc, Option.some.injEq] at hdel
                    rw [← hdel, deref_set_other h c none (fun e => hpa e.symm)]
                    exact e3
  | @alloc h f name _ ih =>
    rcases ih with ih | ⟨a, rest, h1, h2, h3⟩
    · exact Or.inl ih
    · refine Or.inr ⟨a, rest, h1, h2, ?_⟩
      cases hd : h.deref (some a) with
      | none => simp [hd] at h3
      | some b =>
        rw [hd] at h3
        rw [deref_alloc_old h _ hd]
        exact h3
  | addSuccessor p successor tag _ hs ih =>
    rcases ih with ih | ⟨a, rest, h1, h2, h3⟩
    · exact Or.inl ih
    · exact Or.inr ⟨a, rest, h1, h2, by rw [heap_addSuccessor_name hs]; exact h3⟩
  | removeSuccessor p tag _ hs ih =>
    rcases ih with ih | ⟨a, rest, h1, h2, h3⟩
    · exact Or.inl ih
    · exact Or.inr ⟨a, rest, h1, h2, by rw [heap_removeSuccessor_name hs]; exact h3⟩

/-! ## The export loops -/

theorem specConcat_append (l1 l2 : List String) :
    specConcat (l1 ++ l2) = specConcat l1 ++ specConcat l2 := by
  induction l1 with
  | nil => simp [specConcat]
  | cons l ls ih =>
    show l ++ specConcat (ls ++ l2) = (l ++ specConcat ls) ++ specConcat l2
    rw [ih, String.append_assoc]

theorem edge_text (cout blockName successorName tag : String) :
    cout ++ "  \"" ++ blockName ++ "\" -> \"" ++ successorName ++ "\""
        ++ " [label=\"" ++ tag ++ "\"]" ++ ";\n"
      = cout ++ specEdgeLine blockName successorName tag := by
  have e1 : ∀ x : String, "\"" ++ (" [label=\"" ++ x) = "\" [label=\"" ++ x := by
    intro x
    rw [← String.append_assoc]
    rfl
  have e2 : ("\"]" ++ ";\n" : String) = "\"];\n" := by decide
  simp only [specEdgeLine, String.append_assoc, e1, e2]

theorem emitEdges_cons (h : Heap) (blockName tag : String) (successor : BlockPtr)
    (rest : SuccMap) (cout : String) :
    emitEdges h blockName ((tag, successor) :: rest) cout =
      match h.deref successor with
      | none => none
      | some s => emitEdges h blockName rest (cout ++ specEdgeLine blockName s.getName tag) := by
  cases hs : h.deref successor with
  | none => simp only [emitEdges, hs]
  | some s => simp only [emitEdges, hs, edge_text]

theorem emitEdges_eq {h : Heap} (blockName : String) {m : SuccMap}
    (hlive : ∀ e ∈ m, ∃ s, h.deref e.2 = some s) (cout : String) :
    emitEdges h blockName m cout =
      some (cout ++ specConcat
        (m.map fun e => specEdgeLine blockName (specNameAt h e.2) e.1)) := by
  induction m generalizing cout with
  | nil => simp [emitEdges, specConcat]
  | cons e rest ih =>
    obtain ⟨tag, successor⟩ := e
    obtain ⟨s, hs⟩ := hlive (tag, successor) (List.mem_cons_self _ _)
    have hs1 : h.deref successor = some s := hs
    rw [emitEdges_cons]
    simp only [hs1, List.map_cons, specConcat]
    rw [ih (fun e he => hlive e (List.mem_cons_of_mem _ he))]
    simp only [specNameAt, hs1, String.append_assoc]

theorem specBlockLines_ordered {h : Heap} {p : BlockPtr} {b : BasicBlock}
    (hp : h.deref p = some b) (hb : Ordered b.getSuccessors) :
    specBlockLines h p =
      b.getSuccessors.map fun e => specEdgeLine b.getName (specNameAt h e.2) e.1 := by
  simp only [specBlockLines, hp, specEdgesByTag]
  rw [List.Sorted.insertionSort_eq hb]

theorem emitBlocks_eq {h : Heap} {l : List BlockPtr}
    (hlive : ∀ p ∈ l, ∃ b, h.deref p = some b ∧ Ordered b.getSuccessors ∧
      ∀ e ∈ b.getSuccessors, ∃ s, h.deref e.2 = some s) (cout : String) :
    emitBlocks h l cout = some (cout ++ specConcat (l.flatMap (specBlockLines h))) := by
  induction l generalizing cout with
  | nil => simp [emitBlocks, specConcat]
  | cons p rest ih =>
    obtain ⟨b, hp, hb, hsucc⟩ := hlive p (List.mem_cons_self _ _)
    simp only [emitBlocks, hp, emitEdges_eq b.getName hsucc cout, List.flatMap_cons]
    rw [ih (fun q hq => hlive q (List.mem_cons_of_mem _ hq)), specConcat_append,
      specBlockLines_ordered hp hb, String.append_assoc]

theorem emitEdges_shift (h : Heap) (blockName : String) (m : SuccMap) (c1 c2 : String) :
    emitEdges h blockName m (c1 ++ c2) = (emitEdges h blockName m c2).map (c1 ++ ·) := by
  induction m generalizing c2 with
  | nil => simp [emitEdges]
  | cons e rest ih =>
    obtain ⟨tag, successor⟩ := e
    rw [emitEdges_cons, emitEdges_cons]
    cases hs : h.deref successor with
    | none => rfl
    | some s =>
      show emitEdges h blockName rest (c1 ++ c2 ++ _) = _
      rw [String.append_assoc, ih]

theorem emitBlocks_shift (h : Heap) (l : List BlockPtr) (c1 c2 : String) :
    emitBlocks h l (c1 ++ c2) = (emitBlocks h l c2).map (c1 ++ ·) := by
  induction l generalizing c2 with
  | nil => simp [emitBlocks]
  | cons p rest ih =>
    cases hp : h.deref p with
    | none => simp [emitBlocks, hp]
    | some b =>
      simp only [emitBlocks, hp]
      rw [emitEdges_shift]
      cases he : emitEdges h b.getName b.getSuccessors c2 with
      | none => rfl
      | some t =>
        show emitBlocks h rest (c1 ++ t) = _
        rw [ih]

theorem toGraphViz_shift (h : Heap) (f : Function) (c1 c2 : String) :
    Function.toGraphViz h f (c1 ++ c2) = (Function.toGraphViz h f c2).map (c1 ++ ·) := by
  simp only [Function.toGraphViz, String.append_assoc]
  rw [emitBlocks_shift]
  cases he : emitBlocks h f.m_BasicBlocks (c2 ++ ("digraph " ++ (f.m_Name ++ " \x7b\n"))) with
  | none => rfl
  | some t => simp [String.append_assoc]

theorem toGraphViz_eq {h : Heap} {f : Function}
    (hlive : ∀ p ∈ f.getBasicBlocks, ∃ b, h.deref p = some b ∧ Ordered b.getSuccessors ∧
      ∀ e ∈ b.getSuccessors, ∃ s, h.deref e.2 = some s) (cout : String) :
    Function.toGraphViz h f cout = some (cout ++ specGraphViz h f) := by
  have hl : ∀ p ∈ f.m_BasicBlocks, ∃ b, h.deref p = some b ∧ Ordered b.getSuccessors ∧
      ∀ e ∈ b.getSuccessors, ∃ s, h.deref e.2 = some s := hlive
  simp only [Function.toGraphViz, emitBlocks_eq hl, specGraphViz, Function.getName,
    Function.getBasicBlocks, String.append_assoc]

/-! ## Several `addSuccessor` calls on one block -/

theorem foldl_mapAssign_ordered (calls : List (BlockPtr × String)) {m : SuccMap}
    (hm : Ordered m) :
    Ordered (calls.foldl (fun m c => mapAssign m c.2 c.1) m) := by
  induction calls generalizing m with
  | nil => exact hm
  | cons c cs ih => exact ih (ordered_mapAssign hm c.2 c.1)

theorem mem_foldl_mapAssign (calls : List (BlockPtr × String)) {m : SuccMap}
    (hm : Ordered m) (hd : (calls.map Prod.snd).Nodup) (e : String × BlockPtr) :
    e ∈ calls.foldl (fun m c => mapAssign m c.2 c.1) m ↔
      ((e.2, e.1) ∈ calls ∨ (e ∈ m ∧ e.1 ∉ calls.map Prod.snd)) := by
  induction calls generalizing m with
  | nil => simp
  | cons c cs ih =>
    obtain ⟨target, tag⟩ := c
    have hd1 : tag ∉ cs.map Prod.snd := (List.nodup_cons.mp hd).1
    have hd2 : (cs.map Prod.snd).Nodup := (List.nodup_cons.mp hd).2
    simp only [List.foldl_cons]
    rw [ih (ordered_mapAssign hm tag target) hd2, mem_mapAssign hm]
    simp only [List.mem_cons, List.map_cons, not_or]
    constructor
    · rintro (h1 | ⟨h1 | ⟨h1, h2⟩, h3⟩)
      · exact Or.inl (Or.inr h1)
      · exact Or.inl (Or.inl (by rw [h1]))
      · exact Or.inr ⟨h1, h2, h3⟩
    · rintro ((h1 | h1) | ⟨h1, h2, h3⟩)
      · have he : e = (tag, target) := by
          obtain ⟨e1, e2⟩ := e
          simp only [Prod.mk.injEq] at h1 ⊢
          exact ⟨h1.2, h1.1⟩
        exact Or.inr ⟨Or.inl he, by rw [he]; exact hd1⟩
      · exact Or.inl h1
      · exact Or.inr ⟨Or.inr ⟨h1, h2⟩, h3⟩

theorem foldl_mapAssign_perm {calls1 calls2 : List (BlockPtr × String)} {m : SuccMap}
    (hm : Ordered m) (hperm : calls1.Perm calls2) (hd : (calls1.map Prod.snd).Nodup) :
    calls1.foldl (fun m c => mapAssign m c.2 c.1) m
      = calls2.foldl (fun m c => mapAssign m c.2 c.1) m := by
  have hd2 : (calls2.map Prod.snd).Nodup := (hperm.map Prod.snd).nodup_iff.mp hd
  apply ordered_ext (foldl_mapAssign_ordered calls1 hm) (foldl_mapAssign_ordered calls2 hm)
  intro e
  rw [mem_foldl_mapAssign calls1 hm hd, mem_foldl_mapAssign calls2 hm hd2, hperm.mem_iff,
    (hperm.map Prod.snd).mem_iff]

theorem set_deref_self {h : Heap} {a : Nat} {b : BasicBlock}
    (hp : h.deref (some a) = some b) : h.cells.set a (some b) = h.cells := by
  have hlt := deref_lt hp
  apply List.ext_getElem?
  intro n
  by_cases hn : a = n
  · subst hn
    rw [List.getElem?_set_self hlt]
    simp only [Heap.deref, List.get?_eq_getElem?] at hp
    cases hc : h.cells[a]? with
    | none => simp [hc] at hp
    | some v =>
      rw [hc] at hp
      cases v with
      | none => simp at hp
      | some b1 =>
        simp only [Option.join, Option.some_bind, id, Option.some.injEq] at hp
        rw [hp]
  · rw [List.getElem?_set_ne hn]

theorem addSuccessors_eq (calls : List (BlockPtr × String)) {h : Heap} {a : Nat}
    {b : BasicBlock} (hp : h.deref (some a) = some b) :
    addSuccessors h (some a) calls =
      some { cells := h.cells.set a (some
        { b with m_Successors := calls.foldl (fun m c => mapAssign m c.2 c.1) b.m_Successors }) } := by
  induction calls generalizing h b with
  | nil =>
    simp only [addSuccessors, List.foldl_nil]
    rw [set_deref_self hp]
  | cons c cs ih =>
    obtain ⟨target, tag⟩ := c
    have hlt := deref_lt hp
    have hnew : Heap.deref { cells := h.cells.set a (some (b.addSuccessor target tag)) } (some a)
        = some (b.addSuccessor target tag) := by
      simp only [Heap.deref, List.get?_eq_getElem?]
      rw [List.getElem?_set_self hlt]
      rfl
    simp only [addSuccessors, Heap.addSuccessor, hp, Heap.store]
    rw [ih hnew]
    simp only [List.set_set, List.foldl_cons, BasicBlock.addSuccessor]

/-! ## Claims about `BasicBlock` -/

/-- C8: on a block whose successor map is a well-formed `std::map`, two
`addSuccessor` calls with the same tag leave exactly one edge for that tag, it
points at the second target, the size is the size after the first call and the
edges of all other tags are the ones of the original block; and one
`addSuccessor(target, tag)` makes `tag` map to `target` only, keeps the edges of
all other tags and the name, and grows the size by one exactly when `tag` had no
edge before. -/
theorem addSuccessor_last_write_wins (b : BasicBlock) (hb : Ordered b.getSuccessors)
    (tag : String) (t1 t2 target : BlockPtr) :
    (((b.addSuccessor t1 tag).addSuccessor t2 tag).getSuccessors.filter
        (fun e => e.1 = tag) = [(tag, t2)]) ∧
    ((b.addSuccessor t1 tag).addSuccessor t2 tag).getSuccessors.length
        = (b.addSuccessor t1 tag).getSuccessors.length ∧
    (((b.addSuccessor t1 tag).addSuccessor t2 tag).getSuccessors.filter
        (fun e => e.1 ≠ tag) = b.getSuccessors.filter (fun e => e.1 ≠ tag)) ∧
    ((b.addSuccessor target tag).getSuccessors.filter
        (fun e => e.1 = tag) = [(tag, target)]) ∧
    ((b.addSuccessor target tag).getSuccessors.filter
        (fun e => e.1 ≠ tag) = b.getSuccessors.filter (fun e => e.1 ≠ tag)) ∧
    ((b.addSuccessor target tag).getSuccessors.length
        = if tag ∈ b.getSuccessors.map Prod.fst then b.getSuccessors.length
          else b.getSuccessors.length + 1) ∧
    (b.addSuccessor target tag).getName = b.getName := by
  have hone : ∀ (m : SuccMap), Ordered m → ∀ t : BlockPtr,
      (mapAssign m tag t).filter (fun e => e.1 = tag) = [(tag, t)] := by
    intro m hm t
    apply ordered_ext (ordered_filter (ordered_mapAssign hm tag t) _)
    · simp [Ordered]
    · intro e
      simp only [List.mem_filter, mem_mapAssign hm, decide_eq_true_eq, List.mem_singleton]
      constructor
      · rintro ⟨h | ⟨_, hne⟩, he⟩
        · exact h
        · exact absurd he hne
      · intro h
        exact ⟨Or.inl h, by rw [h]⟩
  have hothers : ∀ (m : SuccMap), Ordered m → ∀ t : BlockPtr,
      (mapAssign m tag t).filter (fun e => e.1 ≠ tag) = m.filter (fun e => e.1 ≠ tag) := by
    intro m hm t
    apply ordered_ext (ordered_filter (ordered_mapAssign hm tag t) _) (ordered_filter hm _)
    intro e
    simp only [List.mem_filter, mem_mapAssign hm, decide_eq_true_eq]
    constructor
    · rintro ⟨h | ⟨h, _⟩, hne⟩
      · exact absurd (by rw [h]) hne
      · exact ⟨h, hne⟩
    · rintro ⟨h, hne⟩
      exact ⟨Or.inr ⟨h, hne⟩, hne⟩
  have h1 : Ordered (mapAssign b.m_Successors tag t1) := ordered_mapAssign hb tag t1
  have hin : tag ∈ (mapAssign b.m_Successors tag t1).map Prod.fst :=
    List.mem_map.mpr ⟨(tag, t1), (mem_mapAssign hb tag t1 _).mpr (Or.inl rfl), rfl⟩
  refine ⟨hone _ h1 t2, ?_, ?_, hone _ hb target, hothers _ hb target,
    length_mapAssign hb tag target, rfl⟩
  · show (mapAssign (mapAssign b.m_Successors tag t1) tag t2).length = _
    rw [length_mapAssign h1, if_pos hin]
    rfl
  · show (mapAssign (mapAssign b.m_Successors tag t1) tag t2).filter _ = _
    rw [hothers _ h1 t2]
    exact hothers _ hb t1

/-- Witness for C8 on the entry block of the `Part2` demo after its first
`addSuccessor` call. -/
theorem addSuccessor_last_write_wins_witness :
    Ordered ((BasicBlock.ctor "entry").addSuccessor (some 1) "true").getSuccessors ∧
    (((((BasicBlock.ctor "entry").addSuccessor (some 1) "true").addSuccessor (some 2)
        "false").addSuccessor (some 3) "false").getSuccessors.filter
        (fun e => e.1 = "false") = [("false", some 3)]) :=
  ⟨by decide,
    (addSuccessor_last_write_wins ((BasicBlock.ctor "entry").addSuccessor (some 1) "true")
      (by decide) "false" (some 2) (some 3) none).1⟩

/-- C9: on a block whose successor map is a well-formed `std::map`,
`removeSuccessor(tag)` returns the block unchanged when `tag` has no edge; when
`tag` has an edge the size drops by one; in both cases no edge for `tag` is left
and the edges of all other tags, and the name, are unchanged. -/
theorem removeSuccessor_erases_only_tag (b : BasicBlock) (hb : Ordered b.getSuccessors)
    (tag : String) :
    (tag ∉ b.getSuccessors.map Prod.fst → b.removeSuccessor tag = b) ∧
    (tag ∈ b.getSuccessors.map Prod.fst →
      (b.removeSuccessor tag).getSuccessors.length + 1 = b.getSuccessors.length) ∧
    tag ∉ (b.removeSuccessor tag).getSuccessors.map Prod.fst ∧
    ((b.removeSuccessor tag).getSuccessors.filter (fun e => e.1 ≠ tag)
        = b.getSuccessors.filter (fun e => e.1 ≠ tag)) ∧
    (∀ e, e.1 ≠ tag → (e ∈ (b.removeSuccessor tag).getSuccessors ↔ e ∈ b.getSuccessors)) ∧
    (b.removeSuccessor tag).getName = b.getName := by
  have hb1 : Ordered b.m_Successors := hb
  refine ⟨?_, ?_, ?_, ?_, ?_, rfl⟩
  · intro h
    show ({ b with m_Successors := mapErase b.m_Successors tag } : BasicBlock) = b
    rw [mapErase_absent hb1 h]
  · intro h
    have h : tag ∈ b.m_Successors.map Prod.fst := h
    show (mapErase b.m_Successors tag).length + 1 = b.m_Successors.length
    rw [length_mapErase hb1, if_pos h]
    have hpos : 0 < b.m_Successors.length := by
      rcases List.mem_map.mp h with ⟨e, he, _⟩
      exact List.length_pos_of_mem he
    omega
  · intro hc
    rcases List.mem_map.mp hc with ⟨e, he, hek⟩
    exact ((mem_mapErase hb1 tag e).mp he).2 hek
  · apply ordered_ext (ordered_filter (ordered_mapErase hb1 tag) _) (ordered_filter hb1 _)
    intro e
    show e ∈ (mapErase b.m_Successors tag).filter _ ↔ e ∈ b.m_Successors.filter _
    simp only [List.mem_filter, mem_mapErase hb1, decide_eq_true_eq]
    constructor
    · exact fun h => ⟨h.1.1, h.2⟩
    · exact fun h => ⟨⟨h.1, h.2⟩, h.2⟩
  · intro e hne
    show e ∈ mapErase b.m_Successors tag ↔ e ∈ b.m_Successors
    rw [mem_mapErase hb1]
    exact ⟨fun h => h.1, fun h => ⟨h, hne⟩⟩

/-- Witness for C9 on the entry block of the `Part2` demo: removing the tag
"true" leaves the one edge for "false". -/
theorem removeSuccessor_erases_only_tag_witness :
    Ordered (((BasicBlock.ctor "entry").addSuccessor (some 1) "true").addSuccessor (some 2)
        "false").getSuccessors ∧
    "true" ∈ (((BasicBlock.ctor "entry").addSuccessor (some 1) "true").addSuccessor (some 2)
        "false").getSuccessors.map Prod.fst ∧
    ((((BasicBlock.ctor "entry").addSuccessor (some 1) "true").addSuccessor (some 2)
        "false").removeSuccessor "true").getSuccessors.length + 1
      = (((BasicBlock.ctor "entry").addSuccessor (some 1) "true").addSuccessor (some 2)
        "false").getSuccessors.length :=
  ⟨by decide, by decide,
    (removeSuccessor_erases_only_tag
      (((BasicBlock.ctor "entry").addSuccessor (some 1) "true").addSuccessor (some 2) "false")
      (by decide) "true").2.1 (by decide)⟩

/-- C10: for every block obtained from a newly constructed `BasicBlock` by
`addSuccessor` and `removeSuccessor` calls, the entries `getSuccessors()`
iterates over are strictly increasing in the lexicographic order of their tags;
no tag occurs twice and a tag has at most one successor. -/
theorem built_successors_strictly_increasing (b : BasicBlock) (hb : b.Built) :
    b.getSuccessors.Pairwise (fun e1 e2 => strLess e1.1 e2.1 = true) ∧
    b.getSuccessors.Pairwise (fun e1 e2 => e1.1 < e2.1) ∧
    (b.getSuccessors.map Prod.fst).Nodup ∧
    (∀ tag s1 s2, (tag, s1) ∈ b.getSuccessors → (tag, s2) ∈ b.getSuccessors → s1 = s2) :=
  ⟨built_ordered hb,
    List.Pairwise.imp (fun h => (strLess_iff_lt _ _).mp h) (built_ordered hb),
    ordered_nodup_keys (built_ordered hb),
    fun _ _ _ h1 h2 => ordered_functional (built_ordered hb) h1 h2⟩

/-- Witness for C10 on the entry block of the `Part2` demo. -/
theorem built_successors_strictly_increasing_witness :
    (((BasicBlock.ctor "entry").addSuccessor (some 1) "true").addSuccessor (some 2)
        "false").Built ∧
    (((BasicBlock.ctor "entry").addSuccessor (some 1) "true").addSuccessor (some 2)
        "false").getSuccessors.Pairwise (fun e1 e2 => strLess e1.1 e2.1 = true) :=
  ⟨.addSuccessor _ _ (.addSuccessor _ _ (.ctor _)),
    (built_successors_strictly_increasing _
      (.addSuccessor (some 2) "false" (.addSuccessor (some 1) "true" (.ctor "entry")))).1⟩

/-! ## Claims about `Function` -/

/-- C1: for every function name and every state of the free store, the
constructor `Function(name)` gives a block sequence of length one whose only
element is a newly allocated block named "entry" with no outgoing edges, and
`getEntryBlock()` is that same pointer: non-null and equal to
`getBasicBlocks()[0]`. -/
theorem ctor_single_entry_block (h : Heap) (name : String) :
    ∃ a : Nat,
      (Function.ctor h name).2.getBasicBlocks = [some a] ∧
      (Function.ctor h name).2.getBasicBlocks.length = 1 ∧
      (Function.ctor h name).1.deref (some a)
        = some { m_Name := "entry", m_Successors := [] } ∧
      h.deref (some a) = none ∧
      (Function.ctor h name).2.getEntryBlock = some a ∧
      (Function.ctor h name).2.getEntryBlock ≠ none ∧
      (Function.ctor h name).2.getBasicBlocks.get? 0
        = some (Function.ctor h name).2.getEntryBlock ∧
      (Function.ctor h name).2.getName = name :=
  ⟨h.cells.length, rfl, rfl, deref_alloc_new h (BasicBlock.ctor "entry"),
    deref_alloc_fresh h (BasicBlock.ctor "entry"), rfl, by simp [Function.ctor,
      Function.getEntryBlock, Heap.alloc], rfl, rfl⟩

theorem createBasicBlocks_spec (names : List String) : ∀ (h : Heap) (f : Function),
    ∃ ptrs : List BlockPtr,
      (createBasicBlocks h f names).2.getBasicBlocks = f.getBasicBlocks ++ ptrs ∧
      ptrs.map (fun p => ((createBasicBlocks h f names).1.deref p).map BasicBlock.getName)
        = names.map some ∧
      (createBasicBlocks h f names).2.getEntryBlock = f.getEntryBlock ∧
      (createBasicBlocks h f names).2.getName = f.getName ∧
      ∀ p b, h.deref p = some b → (createBasicBlocks h f names).1.deref p = some b := by
  induction names with
  | nil =>
    intro h f
    exact ⟨[], by simp [createBasicBlocks], rfl, rfl, rfl, fun _ _ hp => hp⟩
  | cons n ns ih =>
    intro h f
    obtain ⟨ptrs, h1, h2, h3, h4, h5⟩ :=
      ih (Function.createBasicBlock h f n).1 (Function.createBasicBlock h f n).2.1
    refine ⟨(h.alloc (BasicBlock.ctor n)).2 :: ptrs, ?_, ?_, ?_, ?_, ?_⟩
    · simp only [createBasicBlocks]
      rw [h1]
      simp [Function.createBasicBlock, Function.getBasicBlocks]
    · simp only [createBasicBlocks, List.map_cons, List.cons.injEq]
      refine ⟨?_, h2⟩
      rw [h5 _ _ (deref_alloc_new h (BasicBlock.ctor n))]
      rfl
    · simp only [createBasicBlocks]
      rw [h3]
      rfl
    · simp only [createBasicBlocks]
      rw [h4]
      rfl
    · intro p b hp
      simp only [createBasicBlocks]
      exact h5 p b (deref_alloc_old h (BasicBlock.ctor n) hp)

/-- C7: for every `Function`, free store and name, `createBasicBlock(name)`
returns a non-null pointer to a newly allocated block with that name and no
edges, the block sequence becomes the old one followed by that pointer (one
longer), the entry reference, the function name and every block that was live
stay as they were; `k` calls with names `n1..nk` append `k` pointers whose
blocks carry `n1..nk` in call order; and the four calls of `Part1` on a newly
constructed `Function` give 5 blocks. -/
theorem createBasicBlock_appends_one (h : Heap) (f : Function) (name : String) :
    (∃ a : Nat,
      (Function.createBasicBlock h f name).2.2 = some a ∧
      (Function.createBasicBlock h f name).2.1.getBasicBlocks
        = f.getBasicBlocks ++ [some a] ∧
      (Function.createBasicBlock h f name).1.deref (some a)
        = some { m_Name := name, m_Successors := [] } ∧
      h.deref (some a) = none) ∧
    (Function.createBasicBlock h f name).2.1.getBasicBlocks.length
      = f.getBasicBlocks.length + 1 ∧
    (Function.createBasicBlock h f name).2.1.getEntryBlock = f.getEntryBlock ∧
    (Function.createBasicBlock h f name).2.1.getName = f.getName ∧
    (∀ p b, h.deref p = some b → (Function.createBasicBlock h f name).1.deref p = some b) ∧
    (∀ names : List String, ∃ ptrs : List BlockPtr,
      (createBasicBlocks h f names).2.getBasicBlocks = f.getBasicBlocks ++ ptrs ∧
      ptrs.length = names.length ∧
      ptrs.map (fun p => ((createBasicBlocks h f names).1.deref p).map BasicBlock.getName)
        = names.map some ∧
      (createBasicBlocks h f names).2.getEntryBlock = f.getEntryBlock ∧
      ∀ p b, h.deref p = some b → (createBasicBlocks h f names).1.deref p = some b) ∧
    (∀ (h0 : Heap) (name0 : String),
      (createBasicBlocks h (Function.ctor h0 name0).2
        ["some block", "bla bla", "to be deleted", "exit"]).2.getBasicBlocks.length = 5) := by
  refine ⟨⟨h.cells.length, rfl, rfl, deref_alloc_new h (BasicBlock.ctor name),
    deref_alloc_fresh h (BasicBlock.ctor name)⟩, ?_, rfl, rfl, ?_, ?_, ?_⟩
  · simp [Function.createBasicBlock, Function.getBasicBlocks]
  · intro p b hp
    exact deref_alloc_old h (BasicBlock.ctor name) hp
  · intro names
    obtain ⟨ptrs, h1, h2, h3, _, h5⟩ := createBasicBlocks_spec names h f
    refine ⟨ptrs, h1, ?_, h2, h3, h5⟩
    have := congrArg List.length h2
    simpa using this
  · intro h0 name0
    simp [createBasicBlocks, Function.createBasicBlock, Function.getBasicBlocks, Function.ctor]

/-- C5: when every pointer of the block sequence points at a live block and
none of these blocks is named `name`, `removeBasicBlock(name)` returns with the
free store and the `Function` (block sequence, entry reference, name) exactly
as they were. -/
theorem removeBasicBlock_absent_name_unchanged (h : Heap) (f : Function) (name : String)
    (habs : ∀ q ∈ f.getBasicBlocks, ∃ c, h.deref q = some c ∧ c.getName ≠ name) :
    Function.removeBasicBlock h f name = some (h, f) :=
  removeBasicBlock_absent habs

/-- Witness for C5: in `Part1`, `mainFunc` holds no block named "missing". -/
theorem removeBasicBlock_absent_name_unchanged_witness :
    (∀ q ∈ Part1_created.2.1.getBasicBlocks,
      ∃ c, Part1_created.1.deref q = some c ∧ c.getName ≠ "missing") ∧
    Function.removeBasicBlock Part1_created.1 Part1_created.2.1 "missing"
      = some (Part1_created.1, Part1_created.2.1) :=
  have hyp : ∀ q ∈ Part1_created.2.1.getBasicBlocks,
      ∃ c, Part1_created.1.deref q = some c ∧ c.getName ≠ "missing" := by
    intro q hq
    have hq1 : q ∈ [some 0, some 2, some 3, some 4, some 5] := hq
    simp only [List.mem_cons, List.mem_singleton, List.not_mem_nil, or_false] at hq1
    rcases hq1 with e | e | e | e | e <;> subst e <;> exact ⟨_, rfl, by decide⟩
  ⟨hyp, removeBasicBlock_absent_name_unchanged Part1_created.1 Part1_created.2.1 "missing" hyp⟩

/-- C6: when the block sequence is `pre ++ p :: post`, the pointers of `pre`
point at live blocks with other names and `p` points at a live block named
`name`, `removeBasicBlock(name)` releases `p` and leaves the sequence
`pre ++ post`: one shorter, the other pointers in their order, the later blocks
named `name` still there; no other object of the free store changes and the
entry reference is kept unless it was `p`. -/
theorem removeBasicBlock_removes_first_match (h : Heap) (f : Function) (name : String)
    (pre post : List BlockPtr) (p : BlockPtr) (b : BasicBlock)
    (hseq : f.getBasicBlocks = pre ++ p :: post)
    (hpre : ∀ q ∈ pre, ∃ c, h.deref q = some c ∧ c.getName ≠ name)
    (hp : h.deref p = some b) (hname : b.getName = name) :
    ∃ h1 f1, Function.removeBasicBlock h f name = some (h1, f1) ∧
      f1.getBasicBlocks = pre ++ post ∧
      f1.getBasicBlocks.length + 1 = f.getBasicBlocks.length ∧
      f1.getName = f.getName ∧
      f1.getEntryBlock = (if p = f.getEntryBlock then none else f.getEntryBlock) ∧
      h1.deref p = none ∧
      (∀ q, q ≠ p → h1.deref q = h.deref q) := by
  cases p with
  | none => simp [Heap.deref] at hp
  | some a =>
    refine ⟨_, _, removeBasicBlock_first hseq hpre hp hname, rfl, ?_, rfl, rfl,
      deref_set_same h a, fun q hq => deref_set_other h a none hq⟩
    show (pre ++ post).length + 1 = f.getBasicBlocks.length
    rw [hseq]
    simp only [List.length_append, List.length_cons]
    omega

/-- Witness for C6: in `Part1`, `mainFunc` has 5 blocks and the call
`removeBasicBlock("to be deleted")` leaves 4. -/
theorem removeBasicBlock_removes_first_match_witness :
    Part1_created.2.1.getBasicBlocks.length = 5 ∧
    Part1_removed.map (fun r => r.2.getBasicBlocks.length) = some 4 ∧
    Part1_created.2.1.getBasicBlocks = [some 0, some 2, some 3] ++ some 4 :: [some 5] ∧
    (∀ q ∈ [some 0, some 2, some 3],
      ∃ c, Part1_created.1.deref q = some c ∧ c.getName ≠ "to be deleted") ∧
    Part1_created.1.deref (some 4) = some (BasicBlock.ctor "to be deleted") ∧
    ∃ h1 f1, Function.removeBasicBlock Part1_created.1 Part1_created.2.1 "to be deleted"
        = some (h1, f1) ∧
      f1.getBasicBlocks = [some 0, some 2, some 3] ++ [some 5] ∧
      f1.getBasicBlocks.length + 1 = Part1_created.2.1.getBasicBlocks.length ∧
      f1.getName = Part1_created.2.1.getName ∧
      f1.getEntryBlock = (if some 4 = Part1_created.2.1.getEntryBlock then none
        else Part1_created.2.1.getEntryBlock) ∧
      h1.deref (some 4) = none ∧
      (∀ q, q ≠ some 4 → h1.deref q = Part1_created.1.deref q) :=
  have hyp : ∀ q ∈ [some 0, some 2, some 3],
      ∃ c, Part1_created.1.deref q = some c ∧ c.getName ≠ "to be deleted" := by
    intro q hq
    simp only [List.mem_cons, List.mem_singleton, List.not_mem_nil, or_false] at hq
    rcases hq with e | e | e <;> subst e <;> exact ⟨_, rfl, by decide⟩
  ⟨by decide, by decide, rfl, hyp, rfl,
    removeBasicBlock_removes_first_match Part1_created.1 Part1_created.2.1 "to be deleted"
      [some 0, some 2, some 3] [some 5] (some 4) (BasicBlock.ctor "to be deleted")
      rfl hyp rfl rfl⟩

/-- C4: in every state reachable from the constructor in which the entry
reference is non-null, the entry reference points at a live block and is the
first pointer of the block sequence; `removeBasicBlock` with that block's name
returns, `getEntryBlock()` is null afterwards, the block sequence is the old one
without its first pointer (the later pointers stay in their order, whatever
their blocks are named), the entry block is released and every other object of
the free store, with its name and successor map, is unchanged. -/
theorem removeBasicBlock_entry_clears_entry (h : Heap) (f : Function)
    (hr : Reachable h f) (hne : f.getEntryBlock ≠ none) :
    ∃ b rest, h.deref f.getEntryBlock = some b ∧
      f.getBasicBlocks = f.getEntryBlock :: rest ∧
      ∃ h1 f1, Function.removeBasicBlock h f b.getName = some (h1, f1) ∧
        f1.getEntryBlock = none ∧
        f1.getBasicBlocks = rest ∧
        f1.getName = f.getName ∧
        h1.deref f.getEntryBlock = none ∧
        (∀ q, q ≠ f.getEntryBlock → h1.deref q = h.deref q) := by
  rcases reachable_entry_first hr with h0 | ⟨a, rest, h1, h2, h3⟩
  · exact absurd h0 hne
  · cases hd : h.deref (some a) with
    | none => simp [hd] at h3
    | some b =>
      have hrem := @removeBasicBlock_first h f b.getName [] rest a b h2
        (fun q hq => absurd hq (List.not_mem_nil q)) hd rfl
      refine ⟨b, rest, ?_, ?_, _, _, hrem, ?_, rfl, rfl, ?_, ?_⟩
      · show h.deref f.m_EntryBlock = some b
        rw [h1, hd]
      · show f.m_BasicBlocks = f.m_EntryBlock :: rest
        rw [h1, h2]
      · show (if some a = f.m_EntryBlock then none else f.m_EntryBlock) = none
        rw [h1, if_pos rfl]
      · show Heap.deref _ f.m_EntryBlock = none
        rw [h1]
        exact deref_set_same h a
      · intro q hq
        have hq1 : q ≠ some a := by
          intro e
          apply hq
          show q = f.m_EntryBlock
          rw [h1, e]
        exact deref_set_other h a none hq1

/-- Witness for C4: a `Function` "f" to which `createBasicBlock("entry")` has
added a second block named "entry". -/
theorem removeBasicBlock_entry_clears_entry_witness :
    Reachable (Function.createBasicBlock (Function.ctor Heap.empty "f").1
        (Function.ctor Heap.empty "f").2 "entry").1
      (Function.createBasicBlock (Function.ctor Heap.empty "f").1
        (Function.ctor Heap.empty "f").2 "entry").2.1 ∧
    (Function.createBasicBlock (Function.ctor Heap.empty "f").1
        (Function.ctor Heap.empty "f").2 "entry").2.1.getEntryBlock ≠ none ∧
    Function.removeBasicBlock
        (Function.createBasicBlock (Function.ctor Heap.empty "f").1
          (Function.ctor Heap.empty "f").2 "entry").1
        (Function.createBasicBlock (Function.ctor Heap.empty "f").1
          (Function.ctor Heap.empty "f").2 "entry").2.1 "entry"
      = some ({ cells := [none, some (BasicBlock.ctor "entry")] },
          { m_Name := "f", m_BasicBlocks := [some 1], m_EntryBlock := none }) ∧
    ∃ b rest,
      (Function.createBasicBlock (Function.ctor Heap.empty "f").1
        (Function.ctor Heap.empty "f").2 "entry").1.deref
        (Function.createBasicBlock (Function.ctor Heap.empty "f").1
          (Function.ctor Heap.empty "f").2 "entry").2.1.getEntryBlock = some b ∧
      (Function.createBasicBlock (Function.ctor Heap.empty "f").1
        (Function.ctor Heap.empty "f").2 "entry").2.1.getBasicBlocks
        = (Function.createBasicBlock (Function.ctor Heap.empty "f").1
          (Function.ctor Heap.empty "f").2 "entry").2.1.getEntryBlock :: rest ∧
      ∃ h1 f1, Function.removeBasicBlock
          (Function.createBasicBlock (Function.ctor Heap.empty "f").1
            (Function.ctor Heap.empty "f").2 "entry").1
          (Function.createBasicBlock (Function.ctor Heap.empty "f").1
            (Function.ctor Heap.empty "f").2 "entry").2.1 b.getName = some (h1, f1) ∧
        f1.getEntryBlock = none ∧
        f1.getBasicBlocks = rest ∧
        f1.getName = (Function.createBasicBlock (Function.ctor Heap.empty "f").1
          (Function.ctor Heap.empty "f").2 "entry").2.1.getName ∧
        h1.deref (Function.createBasicBlock (Function.ctor Heap.empty "f").1
          (Function.ctor Heap.empty "f").2 "entry").2.1.getEntryBlock = none ∧
        (∀ q, q ≠ (Function.createBasicBlock (Function.ctor Heap.empty "f").1
            (Function.ctor Heap.empty "f").2 "entry").2.1.getEntryBlock →
          h1.deref q = (Function.createBasicBlock (Function.ctor Heap.empty "f").1
            (Function.ctor Heap.empty "f").2 "entry").1.deref q) :=
  ⟨.createBasicBlock "entry" (.ctor Heap.empty "f"), by decide, by decide,
    removeBasicBlock_entry_clears_entry _ _
      (.createBasicBlock "entry" (.ctor Heap.empty "f")) (by decide)⟩

/-- C2: when every pointer of the block sequence points at a live block whose
successor map is a well-formed `std::map` and every successor pointer points at
a live block, `toGraphViz()` returns having appended to `std::cout` exactly the
specified text: the line `digraph <FunctionName> {`, for every block in sequence
order and every edge of it in lexicographic tag order one edge line, then the
line `}`, each ended by a newline. -/
theorem toGraphViz_writes_specified_text (h : Heap) (f : Function) (cout : String)
    (hlive : ∀ p ∈ f.getBasicBlocks, ∃ b, h.deref p = some b ∧ Ordered b.getSuccessors ∧
      ∀ e ∈ b.getSuccessors, ∃ s, h.deref e.2 = some s) :
    Function.toGraphViz h f cout = some (cout ++ specGraphViz h f) :=
  toGraphViz_eq hlive cout

/-- Witness for C2: the scenario of the specification ends in the state below,
which meets the hypotheses, and exports the three lines the specification
gives. -/
theorem toGraphViz_writes_specified_text_witness :
    scenarioMain = some
      ({ cells := [some { m_Name := "entry", m_Successors := [("t1", some 1), ("t2", some 2)] },
        some (BasicBlock.ctor "one"), some (BasicBlock.ctor "two")] },
       { m_Name := "main", m_BasicBlocks := [some 0, some 1, some 2], m_EntryBlock := some 0 }) ∧
    (∀ p ∈ Function.getBasicBlocks
        { m_Name := "main", m_BasicBlocks := [some 0, some 1, some 2], m_EntryBlock := some 0 },
      ∃ b, Heap.deref
        { cells := [some { m_Name := "entry", m_Successors := [("t1", some 1), ("t2", some 2)] },
        some (BasicBlock.ctor "one"), some (BasicBlock.ctor "two")] } p = some b ∧
        Ordered b.getSuccessors ∧
        ∀ e ∈ b.getSuccessors, ∃ t, Heap.deref
          { cells := [some { m_Name := "entry", m_Successors := [("t1", some 1), ("t2", some 2)] },
        some (BasicBlock.ctor "one"), some (BasicBlock.ctor "two")] } e.2 = some t) ∧
    Function.toGraphViz
      { cells := [some { m_Name := "entry", m_Successors := [("t1", some 1), ("t2", some 2)] },
        some (BasicBlock.ctor "one"), some (BasicBlock.ctor "two")] }
      { m_Name := "main", m_BasicBlocks := [some 0, some 1, some 2], m_EntryBlock := some 0 } ""
      = some ("" ++ specGraphViz
          { cells := [some { m_Name := "entry", m_Successors := [("t1", some 1), ("t2", some 2)] },
        some (BasicBlock.ctor "one"), some (BasicBlock.ctor "two")] }
          { m_Name := "main", m_BasicBlocks := [some 0, some 1, some 2], m_EntryBlock := some 0 }) ∧
    specGraphViz
      { cells := [some { m_Name := "entry", m_Successors := [("t1", some 1), ("t2", some 2)] },
        some (BasicBlock.ctor "one"), some (BasicBlock.ctor "two")] }
      { m_Name := "main", m_BasicBlocks := [some 0, some 1, some 2], m_EntryBlock := some 0 }
      = "digraph main \x7b\n  \"entry\" -> \"one\" [label=\"t1\"];\n  \"entry\" -> \"two\" [label=\"t2\"];\n\x7d\n" :=
  have hyp : ∀ p ∈ Function.getBasicBlocks
        { m_Name := "main", m_BasicBlocks := [some 0, some 1, some 2], m_EntryBlock := some 0 },
      ∃ b, Heap.deref
        { cells := [some { m_Name := "entry", m_Successors := [("t1", some 1), ("t2", some 2)] },
        some (BasicBlock.ctor "one"), some (BasicBlock.ctor "two")] } p = some b ∧
        Ordered b.getSuccessors ∧
        ∀ e ∈ b.getSuccessors, ∃ t, Heap.deref
          { cells := [some { m_Name := "entry", m_Successors := [("t1", some 1), ("t2", some 2)] },
        some (BasicBlock.ctor "one"), some (BasicBlock.ctor "two")] } e.2 = some t := by
    intro p hp
    have hp1 : p ∈ [some 0, some 1, some 2] := hp
    simp only [List.mem_cons, List.mem_singleton, List.not_mem_nil, or_false] at hp1
    rcases hp1 with e | e | e <;> subst e
    · refine ⟨_, rfl, by decide, ?_⟩
      intro e he
      have he1 : e ∈ [("t1", some 1), ("t2", some 2)] := he
      simp only [List.mem_cons, List.mem_singleton, List.not_mem_nil, or_false] at he1
      rcases he1 with e1 | e1 <;> subst e1 <;> exact ⟨_, rfl⟩
    · exact ⟨_, rfl, by decide, fun e he => absurd he (List.not_mem_nil e)⟩
    · exact ⟨_, rfl, by decide, fun e he => absurd he (List.not_mem_nil e)⟩
  ⟨by decide, hyp, toGraphViz_writes_specified_text _ _ "" hyp, by decide⟩

/-- C3: for a live block with a well-formed successor map and a list of
(target, tag) pairs with pairwise distinct tags, the `addSuccessor` calls made
in the order of the list and in the order of any permutation of it return with
the same free store, hence `toGraphViz()` writes the same text after either; the
block's edges then are the pairs of the list and the old edges of other tags,
iterated in strictly increasing tag order, and its edge lines are written in
that order; and a second `toGraphViz()` call without a mutation in between
appends the same text as the first. -/
theorem export_independent_of_call_order (h : Heap) (p : BlockPtr) (b : BasicBlock)
    (calls1 calls2 : List (BlockPtr × String))
    (hp : h.deref p = some b) (hb : Ordered b.getSuccessors)
    (hperm : calls1.Perm calls2) (hdistinct : (calls1.map Prod.snd).Nodup) :
    (∃ h1 b1, addSuccessors h p calls1 = some h1 ∧ addSuccessors h p calls2 = some h1 ∧
      h1.deref p = some b1 ∧ b1.getName = b.getName ∧
      b1.getSuccessors.Pairwise (fun e1 e2 => strLess e1.1 e2.1 = true) ∧
      (∀ e, e ∈ b1.getSuccessors ↔
        ((e.2, e.1) ∈ calls1 ∨ (e ∈ b.getSuccessors ∧ e.1 ∉ calls1.map Prod.snd))) ∧
      (∀ cout, (∀ e ∈ b1.getSuccessors, ∃ s, h1.deref e.2 = some s) →
        emitEdges h1 b1.getName b1.getSuccessors cout = some (cout ++ specConcat
          (b1.getSuccessors.map fun e => specEdgeLine b1.getName (specNameAt h1 e.2) e.1)))) ∧
    (∀ h1 h2, addSuccessors h p calls1 = some h1 → addSuccessors h p calls2 = some h2 →
      ∀ f cout, Function.toGraphViz h1 f cout = Function.toGraphViz h2 f cout) ∧
    (∀ (h0 : Heap) (f : Function) (cout out1 : String),
      Function.toGraphViz h0 f cout = some out1 →
      ∃ text, out1 = cout ++ text ∧ Function.toGraphViz h0 f out1 = some (out1 ++ text)) := by
  have hb1 : Ordered b.m_Successors := hb
  cases p with
  | none => simp [Heap.deref] at hp
  | some a =>
    have hlt := deref_lt hp
    have e1 := addSuccessors_eq calls1 hp
    have e2 := addSuccessors_eq calls2 hp
    rw [← foldl_mapAssign_perm hb1 hperm hdistinct] at e2
    refine ⟨⟨_, BasicBlock.mk b.m_Name
        (calls1.foldl (fun (m : SuccMap) (c : BlockPtr × String) => mapAssign m c.2 c.1)
          b.m_Successors),
      e1, e2, ?_, rfl, foldl_mapAssign_ordered calls1 hb1,
      fun e => mem_foldl_mapAssign calls1 hb1 hdistinct e,
      fun cout hl => emitEdges_eq _ hl cout⟩, ?_, ?_⟩
    · simp only [Heap.deref, List.get?_eq_getElem?]
      rw [List.getElem?_set_self hlt]
      rfl
    · intro h1 h2 r1 r2 f cout
      rw [e1] at r1
      rw [e2] at r2
      rw [← Option.some.inj r1, ← Option.some.inj r2]
    · intro h0 f cout out1 hout
      have hpre := toGraphViz_shift h0 f cout ""
      rw [String.append_empty, hout] at hpre
      cases ht : Function.toGraphViz h0 f "" with
      | none =>
        rw [ht] at hpre
        cases hpre
      | some text =>
        rw [ht] at hpre
        refine ⟨text, Option.some.inj hpre, ?_⟩
        have hpre2 := toGraphViz_shift h0 f out1 ""
        rw [String.append_empty, ht] at hpre2
        exact hpre2

/-- Witness for C3: with blocks added in the order A, B, C, the calls A->C with
tag "x" and A->B with tag "y" give the same free store in either order and the
line of "x" is written before the line of "y"; in `Part2` the edge with tag
"true" is added before the edge with tag "false" and the line of "false" is
written first. -/
theorem export_independent_of_call_order_witness :
    scenarioABC.1.deref scenarioABC.2.2.1 = some (BasicBlock.ctor "A") ∧
    Ordered (BasicBlock.ctor "A").getSuccessors ∧
    [(scenarioABC.2.2.2.2, "x"), (scenarioABC.2.2.2.1, "y")].Perm
      [(scenarioABC.2.2.2.1, "y"), (scenarioABC.2.2.2.2, "x")] ∧
    ([(scenarioABC.2.2.2.2, "x"), (scenarioABC.2.2.2.1, "y")].map Prod.snd).Nodup ∧
    (∀ h1 h2,
      addSuccessors scenarioABC.1 scenarioABC.2.2.1
        [(scenarioABC.2.2.2.2, "x"), (scenarioABC.2.2.2.1, "y")] = some h1 →
      addSuccessors scenarioABC.1 scenarioABC.2.2.1
        [(scenarioABC.2.2.2.1, "y"), (scenarioABC.2.2.2.2, "x")] = some h2 →
      ∀ f cout, Function.toGraphViz h1 f cout = Function.toGraphViz h2 f cout) ∧
    (addSuccessors scenarioABC.1 scenarioABC.2.2.1
        [(scenarioABC.2.2.2.1, "y"), (scenarioABC.2.2.2.2, "x")]).bind
      (fun h1 => Function.toGraphViz h1 scenarioABC.2.1 "")
      = some "digraph f \x7b\n  \"A\" -> \"C\" [label=\"x\"];\n  \"A\" -> \"B\" [label=\"y\"];\n\x7d\n" ∧
    Part2_cout = some ("Part2 Demo\nGenerated GraphViz:\n\ndigraph test \x7b\n"
      ++ "  \"entry\" -> \"I\" [label=\"false\"];\n"
      ++ "  \"entry\" -> \"H\" [label=\"true\"];\n"
      ++ "  \"H\" -> \"J\" [label=\"\"];\n"
      ++ "  \"I\" -> \"J\" [label=\"\"];\n\x7d\n") :=
  ⟨rfl, by decide, List.Perm.swap _ _ _, by decide,
    (export_independent_of_call_order scenarioABC.1 scenarioABC.2.2.1 (BasicBlock.ctor "A")
      [(scenarioABC.2.2.2.2, "x"), (scenarioABC.2.2.2.1, "y")]
      [(scenarioABC.2.2.2.1, "y"), (scenarioABC.2.2.2.2, "x")]
      rfl (by decide) (List.Perm.swap _ _ _) (by decide)).2.1,
    by decide, by decide⟩

/-! ## The free store of `Function` objects -/

theorem derefFunction_lt {st : Store} {a : Nat} {f : Function}
    (hp : st.derefFunction (some a) = some f) : a < st.functions.length := by
  by_contra hge
  simp only [Store.derefFunction] at hp
  rw [List.get?_eq_none.mpr (by omega)] at hp
  simp at hp

theorem derefFunction_set_same (b : Heap) (fs : List (Option Function)) (a : Nat) :
    Store.derefFunction { blocks := b, functions := fs.set a none } (some a) = none := by
  simp only [Store.derefFunction, List.get?_eq_getElem?]
  by_cases hlt : a < fs.length
  · rw [List.getElem?_set_self hlt]
    rfl
  · rw [List.getElem?_eq_none (by simp; omega)]
    rfl

theorem derefFunction_set_other (b : Heap) (fs : List (Option Function)) (a : Nat)
    (v : Option Function) {q : FunctionPtr} (hq : q ≠ some a) :
    Store.derefFunction { blocks := b, functions := fs.set a v } q
      = Store.derefFunction { blocks := b, functions := fs } q := by
  cases q with
  | none => rfl
  | some c =>
    have hne : a ≠ c := fun e => hq (by rw [e])
    simp only [Store.derefFunction, List.get?_eq_getElem?]
    rw [List.getElem?_set_ne hne]

theorem deleteFunction_live {st : Store} {a : Nat} {f : Function}
    (hp : st.derefFunction (some a) = some f) :
    st.deleteFunction (some a)
      = some { blocks := st.blocks, functions := st.functions.set a none } := by
  simp only [Store.deleteFunction, hp, Function.dtor]

theorem find_if_Function_absent {st : Store} {name : String} {l : List FunctionPtr}
    (habs : ∀ q ∈ l, ∃ g, st.derefFunction q = some g ∧ g.getName ≠ name) :
    find_if_Function st name l = some l.length := by
  induction l with
  | nil => rfl
  | cons q rest ih =>
    obtain ⟨g, hg, hne⟩ := habs q (List.mem_cons_self _ _)
    simp only [find_if_Function, hg, if_neg hne]
    rw [ih (fun r hr => habs r (List.mem_cons_of_mem _ hr))]
    rfl

theorem find_if_Function_first {st : Store} {name : String} {pre post : List FunctionPtr}
    {p : FunctionPtr} {f : Function}
    (hpre : ∀ q ∈ pre, ∃ g, st.derefFunction q = some g ∧ g.getName ≠ name)
    (hp : st.derefFunction p = some f) (hname : f.getName = name) :
    find_if_Function st name (pre ++ p :: post) = some pre.length := by
  induction pre with
  | nil => simp only [List.nil_append, find_if_Function, hp, if_pos hname, List.length_nil]
  | cons q rest ih =>
    obtain ⟨g, hg, hne⟩ := hpre q (List.mem_cons_self _ _)
    have hrec := ih (fun r hr => hpre r (List.mem_cons_of_mem _ hr))
    show find_if_Function st name (q :: (rest ++ p :: post)) = some (rest.length + 1)
    simp only [find_if_Function, hg, if_neg hne, hrec]
    rfl

theorem removeFunction_first {st : Store} {m : Module} {name : String}
    {pre post : List FunctionPtr} {a : Nat} {f : Function}
    (hseq : m.m_Functions = pre ++ some a :: post)
    (hpre : ∀ q ∈ pre, ∃ g, st.derefFunction q = some g ∧ g.getName ≠ name)
    (hp : st.derefFunction (some a) = some f) (hname : f.getName = name) :
    Module.removeFunction st m name =
      some ({ blocks := st.blocks, functions := st.functions.set a none },
        { m with m_Functions := pre ++ post }) := by
  have hlen : pre.length ≠ (pre ++ some a :: post).length := by
    simp only [List.length_append, List.length_cons]
    omega
  simp only [Module.removeFunction, hseq, find_if_Function_first hpre hp hname, hlen, ne_eq,
    not_false_eq_true, if_true, getD_length_append, deleteFunction_live hp,
    eraseIdx_length_append]

theorem removeFunction_absent {st : Store} {m : Module} {name : String}
    (habs : ∀ q ∈ m.m_Functions, ∃ g, st.derefFunction q = some g ∧ g.getName ≠ name) :
    Module.removeFunction st m name = some (st, m) := by
  simp only [Module.removeFunction, find_if_Function_absent habs, ne_eq, not_true_eq_false,
    if_false]

theorem derefFunction_createFunction_new (st : Store) (m : Module) (name : String) :
    (Module.createFunction st m name).1.derefFunction (some st.functions.length)
      = some (Function.ctor st.blocks name).2 := by
  simp [Module.createFunction, Store.derefFunction]

theorem derefFunction_createFunction_old (st : Store) (m : Module) (name : String)
    {p : FunctionPtr} {g : Function} (hp : st.derefFunction p = some g) :
    (Module.createFunction st m name).1.derefFunction p = some g := by
  cases p with
  | none => simp [Store.derefFunction] at hp
  | some a =>
    have hlt := derefFunction_lt hp
    simp only [Store.derefFunction, Module.createFunction] at hp ⊢
    rw [List.get?_eq_getElem?, List.getElem?_append_left hlt, ← List.get?_eq_getElem?]
    exact hp

/-! ## Claims about `Module` -/

/-- C11: when the function sequence is `pre ++ p :: post`, the pointers of
`pre` point at live Functions with other names and `p` points at a live
Function named `name`, `removeFunction(name)` releases the Function at `p` and
leaves the sequence `pre ++ post` (one shorter, the others in their order, later
Functions named `name` still there), and no other Function object changes; when
no Function of the sequence is named `name` the call changes nothing; and a
Module that holds only a Function "main" has an empty `getFunctions()` after
`removeFunction("main")`. -/
theorem removeFunction_removes_first_match (st : Store) (m : Module) (name : String) :
    (∀ (pre post : List FunctionPtr) (p : FunctionPtr) (f : Function),
      m.getFunctions = pre ++ p :: post →
      (∀ q ∈ pre, ∃ g, st.derefFunction q = some g ∧ g.getName ≠ name) →
      st.derefFunction p = some f → f.getName = name →
      ∃ st1 m1, Module.removeFunction st m name = some (st1, m1) ∧
        m1.getFunctions = pre ++ post ∧
        m1.getFunctions.length + 1 = m.getFunctions.length ∧
        m1.m_Name = m.m_Name ∧
        st1.derefFunction p = none ∧
        (∀ q, q ≠ p → st1.derefFunction q = st.derefFunction q)) ∧
    ((∀ q ∈ m.getFunctions, ∃ g, st.derefFunction q = some g ∧ g.getName ≠ name) →
      Module.removeFunction st m name = some (st, m)) ∧
    (∀ moduleName : String,
      (Module.removeFunction (Module.createFunction st (Module.ctor moduleName) "main").1
        (Module.createFunction st (Module.ctor moduleName) "main").2.1 "main").map
        (fun r => r.2.getFunctions) = some []) := by
  refine ⟨?_, fun habs => removeFunction_absent habs, ?_⟩
  · intro pre post p f hseq hpre hp hname
    cases p with
    | none => simp [Store.derefFunction] at hp
    | some a =>
      refine ⟨_, _, removeFunction_first hseq hpre hp hname, rfl, ?_, rfl,
        derefFunction_set_same _ _ a, fun q hq => derefFunction_set_other _ _ a none hq⟩
      show (pre ++ post).length + 1 = m.getFunctions.length
      rw [hseq]
      simp only [List.length_append, List.length_cons]
      omega
  · intro moduleName
    have hrem := @removeFunction_first
      (Module.createFunction st (Module.ctor moduleName) "main").1
      (Module.createFunction st (Module.ctor moduleName) "main").2.1 "main" [] []
      st.functions.length (Function.ctor st.blocks "main").2 rfl
      (fun q hq => absurd hq (List.not_mem_nil q))
      (derefFunction_createFunction_new st (Module.ctor moduleName) "main") rfl
    rw [hrem]
    rfl

/-- Witness for C11: the function sequence of the specification's scenario is
the single pointer to "main", and `removeFunction("main")` empties it. -/
theorem removeFunction_removes_first_match_witness :
    (Module.createFunction Store.empty (Module.ctor "m") "main").2.1.getFunctions
      = [] ++ some 0 :: [] ∧
    (Module.createFunction Store.empty (Module.ctor "m") "main").1.derefFunction (some 0)
      = some (Function.ctor Heap.empty "main").2 ∧
    ∃ st1 m1, Module.removeFunction
        (Module.createFunction Store.empty (Module.ctor "m") "main").1
        (Module.createFunction Store.empty (Module.ctor "m") "main").2.1 "main"
        = some (st1, m1) ∧
      m1.getFunctions = [] ++ [] ∧
      m1.getFunctions.length + 1
        = (Module.createFunction Store.empty (Module.ctor "m") "main").2.1.getFunctions.length ∧
      m1.m_Name = (Module.createFunction Store.empty (Module.ctor "m") "main").2.1.m_Name ∧
      st1.derefFunction (some 0) = none ∧
      (∀ q, q ≠ some 0 → st1.derefFunction q
        = (Module.createFunction Store.empty (Module.ctor "m") "main").1.derefFunction q) :=
  ⟨rfl, rfl,
    (removeFunction_removes_first_match
      (Module.createFunction Store.empty (Module.ctor "m") "main").1
      (Module.createFunction Store.empty (Module.ctor "m") "main").2.1 "main").1
      [] [] (some 0) (Function.ctor Heap.empty "main").2 rfl
      (fun q hq => absurd hq (List.not_mem_nil q)) rfl rfl⟩

/-- C12: for every `Module`, free store and name, `createFunction(name)`
returns a non-null pointer to a newly allocated `Function` with that name whose
block sequence is one newly allocated block named "entry" without edges and
whose entry reference is that block; the function sequence becomes the old one
followed by that pointer (one longer), the module name and every `Function` and
block that was live stay as they were; a newly constructed `Module` has an empty
function sequence; and in `Part1` the module has 2 functions and `blabla` has 4
blocks. -/
theorem createFunction_appends_one (st : Store) (m : Module) (name : String) :
    (∃ a e : Nat,
      (Module.createFunction st m name).2.2 = some a ∧
      (Module.createFunction st m name).2.1.getFunctions = m.getFunctions ++ [some a] ∧
      (Module.createFunction st m name).1.derefFunction (some a)
        = some { m_Name := name, m_BasicBlocks := [some e], m_EntryBlock := some e } ∧
      (Module.createFunction st m name).1.blocks.deref (some e)
        = some { m_Name := "entry", m_Successors := [] } ∧
      st.derefFunction (some a) = none ∧
      st.blocks.deref (some e) = none) ∧
    (Module.createFunction st m name).2.1.getFunctions.length = m.getFunctions.length + 1 ∧
    (Module.createFunction st m name).2.1.m_Name = m.m_Name ∧
    (∀ p g, st.derefFunction p = some g →
      (Module.createFunction st m name).1.derefFunction p = some g) ∧
    (∀ p b, st.blocks.deref p = some b →
      (Module.createFunction st m name).1.blocks.deref p = some b) ∧
    (∀ moduleName : String, (Module.ctor moduleName).getFunctions = []) ∧
    Part1_module.map (fun s => (s.2.1.getFunctions.length,
        (s.1.getBasicBlocks s.2.2.2).map List.length)) = some (2, some 4) := by
  refine ⟨⟨st.functions.length, st.blocks.cells.length, rfl, rfl,
    derefFunction_createFunction_new st m name,
    deref_alloc_new st.blocks (BasicBlock.ctor "entry"), ?_,
    deref_alloc_fresh st.blocks (BasicBlock.ctor "entry")⟩, ?_, rfl, ?_, ?_,
    fun _ => rfl, by decide⟩
  · simp [Store.derefFunction]
  · simp [Module.createFunction, Module.getFunctions]
  · intro p g hp
    exact derefFunction_createFunction_old st m name hp
  · intro p b hp
    exact deref_alloc_old st.blocks (BasicBlock.ctor "entry") hp

/-- C13: `insertBasicBlock(nullptr)` returns the `Function` unchanged and
`insertFunction(nullptr)` returns the `Module` unchanged; for a non-null pointer
the block sequence (the function sequence) becomes the old one followed by
exactly that pointer, and the entry reference and the names are unchanged.
Neither method touches the free store. -/
theorem insert_null_is_noop (f : Function) (m : Module) (a : Nat) :
    f.insertBasicBlock none = f ∧
    m.insertFunction none = m ∧
    (f.insertBasicBlock (some a)).getBasicBlocks = f.getBasicBlocks ++ [some a] ∧
    (f.insertBasicBlock (some a)).getEntryBlock = f.getEntryBlock ∧
    (f.insertBasicBlock (some a)).getName = f.getName ∧
    (m.insertFunction (some a)).getFunctions = m.getFunctions ++ [some a] ∧
    (m.insertFunction (some a)).m_Name = m.m_Name :=
  ⟨rfl, rfl, rfl, rfl, rfl, rfl, rfl⟩

theorem deleteFunction_blocks {st st1 : Store} {p : FunctionPtr}
    (hd : st.deleteFunction p = some st1) : st1.blocks = st.blocks := by
  cases p with
  | none =>
    simp only [Store.deleteFunction, Option.some.injEq] at hd
    rw [hd]
  | some a =>
    simp only [Store.deleteFunction] at hd
    cases hf : st.derefFunction (some a) with
    | none =>
      rw [hf] at hd
      cases hd
    | some f =>
      rw [hf] at hd
      simp only [Option.some.injEq] at hd
      rw [← hd]
      rfl

theorem removeFunction_blocks {st st1 : Store} {m m1 : Module} {name : String}
    (hrem : Module.removeFunction st m name = some (st1, m1)) : st1.blocks = st.blocks := by
  unfold Module.removeFunction at hrem
  cases hfind : find_if_Function st name m.m_Functions with
  | none =>
    rw [hfind] at hrem
    cases hrem
  | some it =>
    rw [hfind] at hrem
    by_cases hend : it = m.m_Functions.length
    · simp only [hend, ne_eq, not_true_eq_false, if_false, Option.some.injEq,
        Prod.mk.injEq] at hrem
      rw [hrem.1]
    · simp only [hend, ne_eq, not_false_eq_true, if_true] at hrem
      cases hdel : st.deleteFunction (m.m_Functions.getD it none) with
      | none =>
        rw [hdel] at hrem
        cases hrem
      | some st2 =>
        rw [hdel] at hrem
        simp only [Option.some.injEq, Prod.mk.injEq] at hrem
        rw [← hrem.1]
        exact deleteFunction_blocks hdel

/-- C14, the code at the scenario of the specification: before the removal the
function "main" holds the blocks at addresses 0, 1 and 2; after
`removeFunction("main")` the function sequence is empty and the `Function`
object is released, but the blocks "entry", "one" and "two" are all still
allocated. No call of `removeFunction` releases a block, and when `Part1`
returns after `delete module` both functions and all their blocks are still
allocated. -/
theorem removeFunction_leaves_blocks_allocated :
    scenarioModule.map (fun s => (s.2.1.getFunctions, s.1.getBasicBlocks s.2.2))
      = some ([some 0], some [some 0, some 1, some 2]) ∧
    scenarioModule_removed.map (fun r => (r.2.getFunctions, r.1.derefFunction (some 0)))
      = some ([], none) ∧
    scenarioModule_removed.map (fun r =>
        [(r.1.blocks.deref (some 0)).map BasicBlock.getName,
         (r.1.blocks.deref (some 1)).map BasicBlock.getName,
         (r.1.blocks.deref (some 2)).map BasicBlock.getName])
      = some [some "entry", some "one", some "two"] ∧
    (∀ (st st1 : Store) (m m1 : Module) (name : String),
      Module.removeFunction st m name = some (st1, m1) → st1.blocks = st.blocks) ∧
    Part1_end.map (fun st =>
        (st.functions.map Option.isSome, st.blocks.cells.map Option.isSome))
      = some ([true, true], [true, true, true, true, false, true, true, true, true]) :=
  ⟨by decide, by decide, by decide, fun _ _ _ _ _ h => removeFunction_blocks h, by decide⟩

/-! ## The degraded state without an entry block -/

/-- The result of a `removeBasicBlock` call that returns: `find_if` returned an
iterator; at `end()` nothing changes, otherwise the pointer under the iterator
is deleted and erased and the entry reference is cleared exactly when it is
that pointer. -/
theorem removeBasicBlock_result {h h1 : Heap} {f f1 : Function} {name : String}
    (hrem : Function.removeBasicBlock h f name = some (h1, f1)) :
    ∃ it, find_if h name f.m_BasicBlocks = some it ∧
      ((it = f.m_BasicBlocks.length ∧ h1 = h ∧ f1 = f) ∨
       (it ≠ f.m_BasicBlocks.length ∧
        h.delete (f.m_BasicBlocks.getD it none) = some h1 ∧
        f1 = { f with m_BasicBlocks := f.m_BasicBlocks.eraseIdx it,
                      m_EntryBlock := if f.m_BasicBlocks.getD it none = f.m_EntryBlock
                        then none else f.m_EntryBlock })) := by
  unfold Function.removeBasicBlock at hrem
  cases hfind : find_if h name f.m_BasicBlocks with
  | none =>
    rw [hfind] at hrem
    cases hrem
  | some it =>
    rw [hfind] at hrem
    refine ⟨it, rfl, ?_⟩
    by_cases hend : it = f.m_BasicBlocks.length
    · simp only [hend, ne_eq, not_true_eq_false, if_false, Option.some.injEq,
        Prod.mk.injEq] at hrem
      exact Or.inl ⟨hend, hrem.1.symm, hrem.2.symm⟩
    · simp only [hend, ne_eq, not_false_eq_true, if_true] at hrem
      cases hdel : h.delete (f.m_BasicBlocks.getD it none) with
      | none =>
        rw [hdel] at hrem
        cases hrem
      | some h2 =>
        rw [hdel] at hrem
        simp only [Option.some.injEq, Prod.mk.injEq] at hrem
        exact Or.inr ⟨hend, by rw [hrem.1], hrem.2.symm⟩

/-- C15: for every function name and free store, constructing a `Function`
and calling `removeBasicBlock("entry")` returns with zero blocks and a null
entry reference, and `toGraphViz()` then appends only the header line
`digraph <FunctionName> {` and the footer line `}`. -/
theorem entry_removal_reaches_degraded_state (h : Heap) (name cout : String) :
    ∃ h1 f1,
      Function.removeBasicBlock (Function.ctor h name).1 (Function.ctor h name).2 "entry"
        = some (h1, f1) ∧
      f1.getBasicBlocks = [] ∧
      f1.getBasicBlocks.length = 0 ∧
      f1.getEntryBlock = none ∧
      f1.getName = name ∧
      Function.toGraphViz h1 f1 cout
        = some (cout ++ "digraph " ++ name ++ " \x7b\n" ++ "\x7d\n") := by
  have hrem := @removeBasicBlock_first (Function.ctor h name).1 (Function.ctor h name).2
    "entry" [] [] h.cells.length (BasicBlock.ctor "entry") rfl
    (fun q hq => absurd hq (List.not_mem_nil q))
    (deref_alloc_new h (BasicBlock.ctor "entry")) rfl
  refine ⟨_, _, hrem, rfl, rfl, ?_, rfl, ?_⟩
  · show (if some h.cells.length = some h.cells.length then none else _) = none
    rw [if_pos rfl]
  · simp only [Function.toGraphViz, List.nil_append, emitBlocks]
    rfl

theorem runCall_entry_null {s s1 : State} {c : Call}
    (hnull : s.function.m_EntryBlock = none) (hrun : runCall s c = some s1) :
    s1.function.m_EntryBlock = none := by
  cases c with
  | createBasicBlock name =>
    simp only [runCall, Option.some.injEq] at hrun
    rw [← hrun]
    exact hnull
  | insertBasicBlock basicBlock =>
    simp only [runCall, Option.some.injEq] at hrun
    rw [← hrun]
    show (s.function.insertBasicBlock basicBlock).m_EntryBlock = none
    unfold Function.insertBasicBlock
    split_ifs <;> exact hnull
  | removeBasicBlock name =>
    simp only [runCall] at hrun
    cases hrem : Function.removeBasicBlock s.heap s.function name with
    | none =>
      rw [hrem] at hrun
      cases hrun
    | some r =>
      obtain ⟨h1, f1⟩ := r
      rw [hrem] at hrun
      simp only [Option.map_some', Option.some.injEq] at hrun
      rw [← hrun]
      show f1.m_EntryBlock = none
      obtain ⟨it, _, hcase⟩ := removeBasicBlock_result hrem
      rcases hcase with ⟨_, _, hf⟩ | ⟨_, _, hf⟩
      · rw [hf]
        exact hnull
      · rw [hf]
        show (if _ = s.function.m_EntryBlock then none else s.function.m_EntryBlock) = none
        split_ifs
        · rfl
        · exact hnull
  | toGraphViz =>
    simp only [runCall] at hrun
    cases ht : Function.toGraphViz s.heap s.function s.cout with
    | none =>
      rw [ht] at hrun
      cases hrun
    | some out =>
      rw [ht] at hrun
      simp only [Option.map_some', Option.some.injEq] at hrun
      rw [← hrun]
      exact hnull
  | newBasicBlock name =>
    simp only [runCall, Option.some.injEq] at hrun
    rw [← hrun]
    exact hnull
  | addSuccessor p successor tag =>
    simp only [runCall] at hrun
    cases ht : s.heap.addSuccessor p successor tag with
    | none =>
      rw [ht] at hrun
      cases hrun
    | some out =>
      rw [ht] at hrun
      simp only [Option.map_some', Option.some.injEq] at hrun
      rw [← hrun]
      exact hnull
  | removeSuccessor p tag =>
    simp only [runCall] at hrun
    cases ht : s.heap.removeSuccessor p tag with
    | none =>
      rw [ht] at hrun
      cases hrun
    | some out =>
      rw [ht] at hrun
      simp only [Option.map_some', Option.some.injEq] at hrun
      rw [← hrun]
      exact hnull

/-- C16: once `getEntryBlock()` is null it is null after every finite sequence
of `createBasicBlock`, `insertBasicBlock`, `removeBasicBlock` and `toGraphViz`
calls that returns, also with allocations of blocks and `addSuccessor` /
`removeSuccessor` calls in between, whatever the names of the blocks created
or inserted. -/
theorem entry_never_repaired (s s1 : State) (calls : List Call)
    (hnull : s.function.getEntryBlock = none) (hrun : runCalls s calls = some s1) :
    s1.function.getEntryBlock = none := by
  induction calls generalizing s with
  | nil =>
    simp only [runCalls, Option.some.injEq] at hrun
    rw [← hrun]
    exact hnull
  | cons c cs ih =>
    simp only [runCalls] at hrun
    cases hc : runCall s c with
    | none =>
      rw [hc] at hrun
      cases hrun
    | some s2 =>
      rw [hc] at hrun
      exact ih s2 (runCall_entry_null hnull hc) hrun

/-- Witness for C16: after `removeBasicBlock("entry")` on a new `Function`, the
calls `createBasicBlock("entry")`, `new BasicBlock("entry")`, `insertBasicBlock`
of that block, `toGraphViz`, `removeBasicBlock("entry")` and `toGraphViz` all
return, and the entry reference is still null. -/
theorem entry_never_repaired_witness :
    Function.getEntryBlock
      { m_Name := "f", m_BasicBlocks := [], m_EntryBlock := none } = none ∧
    runCalls { heap := { cells := [none] },
               function := { m_Name := "f", m_BasicBlocks := [], m_EntryBlock := none },
               cout := "" }
        [.createBasicBlock "entry", .newBasicBlock "entry", .insertBasicBlock (some 2),
         .toGraphViz, .removeBasicBlock "entry", .toGraphViz]
      = some { heap := { cells := [none, none, some (BasicBlock.ctor "entry")] },
               function := { m_Name := "f", m_BasicBlocks := [some 2], m_EntryBlock := none },
               cout := "digraph f \x7b\n\x7d\ndigraph f \x7b\n\x7d\n" } ∧
    Function.getEntryBlock
      { m_Name := "f", m_BasicBlocks := [some 2], m_EntryBlock := none } = none :=
  ⟨rfl, by decide,
    entry_never_repaired
      { heap := { cells := [none] },
        function := { m_Name := "f", m_BasicBlocks := [], m_EntryBlock := none },
        cout := "" }
      { heap := { cells := [none, none, some (BasicBlock.ctor "entry")] },
        function := { m_Name := "f", m_BasicBlocks := [some 2], m_EntryBlock := none },
        cout := "digraph f \x7b\n\x7d\ndigraph f \x7b\n\x7d\n" }
      [.createBasicBlock "entry", .newBasicBlock "entry", .insertBasicBlock (some 2),
       .toGraphViz, .removeBasicBlock "entry", .toGraphViz]
      rfl (by decide)⟩

/-- C17: when `removeBasicBlock(name)` returns, `find_if` returned an iterator
`it` and the new block sequence is the old one without position `it`; at
`end()` no block is removed and the free store and the entry reference are
unchanged; otherwise the pointer under `it` is the block removed, and if it is
not the entry reference the entry reference is unchanged; the entry reference
changes only when the removed pointer is the entry reference, and then it
becomes null. -/
theorem removeBasicBlock_keeps_entry_unless_removed (h h1 : Heap) (f f1 : Function)
    (name : String) (hrem : Function.removeBasicBlock h f name = some (h1, f1)) :
    ∃ it, find_if h name f.getBasicBlocks = some it ∧
      f1.getBasicBlocks = f.getBasicBlocks.eraseIdx it ∧
      (it = f.getBasicBlocks.length → h1 = h ∧ f1.getEntryBlock = f.getEntryBlock) ∧
      (it ≠ f.getBasicBlocks.length →
        h.delete (f.getBasicBlocks.getD it none) = some h1) ∧
      (f.getBasicBlocks.getD it none ≠ f.getEntryBlock →
        f1.getEntryBlock = f.getEntryBlock) ∧
      (f1.getEntryBlock ≠ f.getEntryBlock →
        it ≠ f.getBasicBlocks.length ∧
        f.getBasicBlocks.getD it none = f.getEntryBlock ∧
        f1.getEntryBlock = none) := by
  obtain ⟨it, hfind, hcase⟩ := removeBasicBlock_result hrem
  refine ⟨it, hfind, ?_⟩
  rcases hcase with ⟨hend, hh, hf⟩ | ⟨hend, hdel, hf⟩
  · subst hh
    subst hf
    refine ⟨?_, fun _ => ⟨rfl, rfl⟩, fun hne => absurd hend hne, fun _ => rfl,
      fun hne => absurd rfl hne⟩
    show f1.m_BasicBlocks = f1.m_BasicBlocks.eraseIdx it
    rw [hend, List.eraseIdx_of_length_le (Nat.le_refl _)]
  · subst hf
    refine ⟨rfl, fun he => absurd he hend, fun _ => hdel, ?_, ?_⟩
    · intro hne
      have hne1 : f.m_BasicBlocks.getD it none ≠ f.m_EntryBlock := hne
      show (if _ = f.m_EntryBlock then none else f.m_EntryBlock) = f.m_EntryBlock
      rw [if_neg hne1]
    · intro hchg
      by_cases hp : f.m_BasicBlocks.getD it none = f.m_EntryBlock
      · refine ⟨hend, hp, ?_⟩
        show (if _ = f.m_EntryBlock then none else f.m_EntryBlock) = none
        rw [if_pos hp]
      · exfalso
        apply hchg
        show (if _ = f.m_EntryBlock then none else f.m_EntryBlock) = f.m_EntryBlock
        rw [if_neg hp]

/-- Witness for C17: on a new `Function` "f" with a second block "B",
`removeBasicBlock("B")` removes the block at position 1, which is not the entry
block, and the entry reference stays the pointer to "entry". -/
theorem removeBasicBlock_keeps_entry_unless_removed_witness :
    Function.removeBasicBlock
        { cells := [some (BasicBlock.ctor "entry"), some (BasicBlock.ctor "B")] }
        { m_Name := "f", m_BasicBlocks := [some 0, some 1], m_EntryBlock := some 0 } "B"
      = some ({ cells := [some (BasicBlock.ctor "entry"), none] },
          { m_Name := "f", m_BasicBlocks := [some 0], m_EntryBlock := some 0 }) ∧
    ∃ it, find_if { cells := [some (BasicBlock.ctor "entry"), some (BasicBlock.ctor "B")] } "B"
        (Function.getBasicBlocks
          { m_Name := "f", m_BasicBlocks := [some 0, some 1], m_EntryBlock := some 0 })
        = some it ∧
      Function.getBasicBlocks
          { m_Name := "f", m_BasicBlocks := [some 0], m_EntryBlock := some 0 }
        = (Function.getBasicBlocks
          { m_Name := "f", m_BasicBlocks := [some 0, some 1],
            m_EntryBlock := some 0 }).eraseIdx it :=
  ⟨by decide,
    (removeBasicBlock_keeps_entry_unless_removed
      { cells := [some (BasicBlock.ctor "entry"), some (BasicBlock.ctor "B")] }
      { cells := [some (BasicBlock.ctor "entry"), none] }
      { m_Name := "f", m_BasicBlocks := [some 0, some 1], m_EntryBlock := some 0 }
      { m_Name := "f", m_BasicBlocks := [some 0], m_EntryBlock := some 0 }
      "B" (by decide)).imp fun _ hit => ⟨hit.1, hit.2.1⟩⟩

/-- C18: in every state reachable from the constructor, if the entry reference
is non-null then the block sequence is non-empty, its first element is the
entry reference, and that pointer points at a live block named "entry"; so
`find_if` for "entry" stops at position 0 and `removeBasicBlock("entry")`
releases the entry block itself and nulls the entry reference. -/
theorem reachable_entry_is_first_block (h : Heap) (f : Function)
    (hr : Reachable h f) (hne : f.getEntryBlock ≠ none) :
    f.getBasicBlocks ≠ [] ∧
    f.getBasicBlocks.head? = some f.getEntryBlock ∧
    (∃ b, h.deref f.getEntryBlock = some b ∧ b.getName = "entry") ∧
    find_if h "entry" f.getBasicBlocks = some 0 ∧
    (∃ h1 f1, Function.removeBasicBlock h f "entry" = some (h1, f1) ∧
      h1.deref f.getEntryBlock = none ∧
      f1.getEntryBlock = none ∧
      f1.getBasicBlocks = f.getBasicBlocks.tail) := by
  rcases reachable_entry_first hr with h0 | ⟨a, rest, h1, h2, h3⟩
  · exact absurd h0 hne
  · cases hd : h.deref (some a) with
    | none => simp [hd] at h3
    | some b =>
      rw [hd] at h3
      have hname : b.getName = "entry" := Option.some.inj h3
      have he : f.getEntryBlock = some a := h1
      have hb : f.getBasicBlocks = some a :: rest := h2
      have hrem := @removeBasicBlock_first h f "entry" [] rest a b h2
        (fun q hq => absurd hq (List.not_mem_nil q)) hd hname
      refine ⟨?_, ?_, ⟨b, ?_, hname⟩, ?_, _, _, hrem, ?_, ?_, ?_⟩
      · rw [hb]
        exact List.cons_ne_nil _ _
      · rw [hb, he]
        rfl
      · rw [he]
        exact hd
      · rw [hb]
        exact @find_if_first h "entry" [] rest (some a) b
          (fun q hq => absurd hq (List.not_mem_nil q)) hd hname
      · rw [he]
        exact deref_set_same h a
      · show (if some a = f.m_EntryBlock then none else f.m_EntryBlock) = none
        rw [h1, if_pos rfl]
      · rw [hb]
        rfl

/-- Witness for C18: a `Function` "g" with a second block named "entry" and an
inserted pointer. -/
theorem reachable_entry_is_first_block_witness :
    Reachable (Function.createBasicBlock (Function.ctor Heap.empty "g").1
        (Function.ctor Heap.empty "g").2 "entry").1
      ((Function.createBasicBlock (Function.ctor Heap.empty "g").1
        (Function.ctor Heap.empty "g").2 "entry").2.1.insertBasicBlock (some 7)) ∧
    ((Function.createBasicBlock (Function.ctor Heap.empty "g").1
        (Function.ctor Heap.empty "g").2 "entry").2.1.insertBasicBlock
          (some 7)).getEntryBlock ≠ none ∧
    ((Function.createBasicBlock (Function.ctor Heap.empty "g").1
        (Function.ctor Heap.empty "g").2 "entry").2.1.insertBasicBlock
          (some 7)).getBasicBlocks = [some 0, some 1, some 7] ∧
    find_if (Function.createBasicBlock (Function.ctor Heap.empty "g").1
        (Function.ctor Heap.empty "g").2 "entry").1 "entry"
      ((Function.createBasicBlock (Function.ctor Heap.empty "g").1
        (Function.ctor Heap.empty "g").2 "entry").2.1.insertBasicBlock
          (some 7)).getBasicBlocks = some 0 :=
  ⟨.insertBasicBlock (some 7) (.createBasicBlock "entry" (.ctor Heap.empty "g")),
    by decide, by decide,
    (reachable_entry_is_first_block _ _
      (.insertBasicBlock (some 7) (.createBasicBlock "entry" (.ctor Heap.empty "g")))
      (by decide)).2.2.2.1⟩

/-! ## Edges to a removed block -/

theorem heap_addSuccessor_live {h : Heap} {a : Nat} {b : BasicBlock}
    (hp : h.deref (some a) = some b) (successor : BlockPtr) (tag : String) :
    h.addSuccessor (some a) successor tag
      = some { cells := h.cells.set a (some (b.addSuccessor successor tag)) } := by
  simp only [Heap.addSuccessor, hp, Heap.store]

theorem deref_set_self_some {h : Heap} {a : Nat} (hlt : a < h.cells.length)
    (v : BasicBlock) : Heap.deref { cells := h.cells.set a (some v) } (some a) = some v := by
  simp only [Heap.deref, List.get?_eq_getElem?]
  rw [List.getElem?_set_self hlt]
  rfl

/-- C19: for every function name and free store, the calls `Function(name)`,
`B = createBasicBlock("B")`, `getEntryBlock()->addSuccessor(B, "t")` reach a
state in which every edge target is a live block of the `Function`;
`removeBasicBlock("B")` then returns with the block sequence reduced to the
entry block, whose successor map still holds the edge "t" to `B`, while `B` is
no longer in the block sequence and is released: the property is lost, and
`toGraphViz()` in that state reads through the dangling pointer. -/
theorem removeBasicBlock_leaves_dangling_edge (h : Heap) (name cout : String) :
    ∃ (e B : BlockPtr) (h2 h3 : Heap) (f3 : Function),
      (Function.ctor h name).2.getEntryBlock = e ∧
      (Function.createBasicBlock (Function.ctor h name).1 (Function.ctor h name).2 "B").2.2
        = B ∧
      (Function.createBasicBlock (Function.ctor h name).1
        (Function.ctor h name).2 "B").1.addSuccessor e B "t" = some h2 ∧
      EdgesLive h2
        (Function.createBasicBlock (Function.ctor h name).1 (Function.ctor h name).2 "B").2.1 ∧
      Function.removeBasicBlock h2
        (Function.createBasicBlock (Function.ctor h name).1 (Function.ctor h name).2 "B").2.1
        "B" = some (h3, f3) ∧
      f3.getBasicBlocks = [e] ∧
      h3.deref e = some { m_Name := "entry", m_Successors := [("t", B)] } ∧
      B ∉ f3.getBasicBlocks ∧
      h3.deref B = none ∧
      ¬ EdgesLive h3 f3 ∧
      Function.toGraphViz h3 f3 cout = none := by
  have hE0 := deref_alloc_new h (BasicBlock.ctor "entry")
  have hE1 := deref_alloc_old (h.alloc (BasicBlock.ctor "entry")).1 (BasicBlock.ctor "B") hE0
  have hB1 := deref_alloc_new (h.alloc (BasicBlock.ctor "entry")).1 (BasicBlock.ctor "B")
  have hlen : (h.alloc (BasicBlock.ctor "entry")).1.cells.length = h.cells.length + 1 := by
    simp [Heap.alloc]
  have hne : (some h.cells.length : BlockPtr)
      ≠ some (h.alloc (BasicBlock.ctor "entry")).1.cells.length := by
    rw [hlen]
    intro hc
    have := Option.some.inj hc
    omega
  have hadd := heap_addSuccessor_live hE1
    (some (h.alloc (BasicBlock.ctor "entry")).1.cells.length) "t"
  have hE2 := deref_set_self_some (deref_lt hE1)
    ((BasicBlock.ctor "entry").addSuccessor
      (some (h.alloc (BasicBlock.ctor "entry")).1.cells.length) "t")
  have hB2 := (deref_set_other
    ((h.alloc (BasicBlock.ctor "entry")).1.alloc (BasicBlock.ctor "B")).1 h.cells.length
    (some ((BasicBlock.ctor "entry").addSuccessor
      (some (h.alloc (BasicBlock.ctor "entry")).1.cells.length) "t")) hne.symm).trans hB1
  have hrem := @removeBasicBlock_first
    { cells := ((h.alloc (BasicBlock.ctor "entry")).1.alloc (BasicBlock.ctor "B")).1.cells.set
        h.cells.length (some ((BasicBlock.ctor "entry").addSuccessor
          (some (h.alloc (BasicBlock.ctor "entry")).1.cells.length) "t")) }
    (Function.createBasicBlock (Function.ctor h name).1 (Function.ctor h name).2 "B").2.1
    "B" [some h.cells.length] [] (h.alloc (BasicBlock.ctor "entry")).1.cells.length
    (BasicBlock.ctor "B") rfl
    (by
      intro q hq
      rw [List.mem_singleton.mp hq]
      exact ⟨_, hE2, (by decide : ("entry" : String) ≠ "B")⟩)
    hB2 rfl
  have hE3 := (deref_set_other _ (h.alloc (BasicBlock.ctor "entry")).1.cells.length none
    hne).trans hE2
  have hB3 := deref_set_same
    { cells := ((h.alloc (BasicBlock.ctor "entry")).1.alloc (BasicBlock.ctor "B")).1.cells.set
        h.cells.length (some ((BasicBlock.ctor "entry").addSuccessor
          (some (h.alloc (BasicBlock.ctor "entry")).1.cells.length) "t")) }
    (h.alloc (BasicBlock.ctor "entry")).1.cells.length
  refine ⟨some h.cells.length, some (h.alloc (BasicBlock.ctor "entry")).1.cells.length,
    _, _, _, rfl, rfl, hadd, ?_, hrem, rfl, hE3, ?_, hB3, ?_, ?_⟩
  · intro p hp
    have hp1 : p ∈ [some h.cells.length,
        some (h.alloc (BasicBlock.ctor "entry")).1.cells.length] := hp
    simp only [List.mem_cons, List.mem_singleton, List.not_mem_nil, or_false] at hp1
    rcases hp1 with e1 | e1
    · rw [e1]
      refine ⟨_, hE2, ?_⟩
      intro e he
      have he1 : e = ("t", some (h.alloc (BasicBlock.ctor "entry")).1.cells.length) :=
        List.mem_singleton.mp he
      rw [he1]
      exact ⟨List.mem_cons_of_mem _ (List.mem_singleton_self _), _, hB2⟩
    · rw [e1]
      exact ⟨_, hB2, fun e he => absurd he (List.not_mem_nil e)⟩
  · intro hc
    exact hne (List.mem_singleton.mp hc).symm
  · intro hl
    obtain ⟨b, hb, hedges⟩ := hl (some h.cells.length) (List.mem_singleton_self _)
    rw [hE3] at hb
    have hb1 := Option.some.inj hb
    obtain ⟨_, s, hs⟩ := hedges ("t", some (h.alloc (BasicBlock.ctor "entry")).1.cells.length)
      (by rw [← hb1]; exact List.mem_singleton_self _)
    rw [hB3] at hs
    cases hs
  · have hE4 : Heap.deref _ (some h.cells.length) = some
        { m_Name := "entry",
          m_Successors := [("t", some (h.alloc (BasicBlock.ctor "entry")).1.cells.length)] } :=
      hE3
    simp only [Function.toGraphViz, emitBlocks, List.nil_append, List.singleton_append,
      hE4, BasicBlock.getSuccessors, BasicBlock.getName, emitEdges, hB3]

end Revng
